import Mathlib

/-!
Verification development for the STAR_MAZE simulation core (src/main.py).

Shallow-embedding conventions used throughout:
* Python ints are `Int` (coordinates, counters) or `Nat` (grid cell values,
  list indices); wall-clock instants returned by `time.time()` are `Rat`.
* `pygame` rendering, fonts, message strings, and the frame loop are out of
  scope; `add_game_message` calls are modeled as no-ops.
* Each Python method that samples `time.time()` receives the sampled instant
  `now : Rat` explicitly; one call of a method is modeled as one instant.
* Randomness is modeled by explicit oracles: the maze generator takes a
  stream `rng : Nat -> Nat` (each `random.choice` / `random.randint` consumes
  one stream element), the game takes choice functions on lists; theorems
  that depend on randomness quantify over all oracles, adding the membership
  hypothesis `l ≠ [] -> choice l ∈ l` where the claim needs it.
* `Position.distance_to` returns `sqrt(dx^2+dy^2)`; every use in the source
  compares it with a nonnegative constant `c`, which is equivalent to
  comparing the integer `dx^2+dy^2` with `c^2`, so distances are embedded
  squared (`Position.dist_sq`).
-/

/-- Grid coordinate pair, mirroring the `Position` dataclass. -/
structure Position where
  x : Int
  y : Int
deriving DecidableEq, Repr

/-- `Position.__add__`. -/
def Position.add (p q : Position) : Position := ⟨p.x + q.x, p.y + q.y⟩

/-- `Position.__lt__`: lexicographic, x then y (the heapq tie-break order). -/
def Position.ltb (p q : Position) : Bool :=
  if p.x = q.x then p.y < q.y else p.x < q.x

/-- Square of `Position.distance_to` (see header: all uses are threshold
comparisons, embedded squared). -/
def Position.dist_sq (p q : Position) : Int :=
  (p.x - q.x) ^ 2 + (p.y - q.y) ^ 2

/-- Game-setup constant `MAZE_WIDTH`. -/
def MAZE_WIDTH : Int := 25

/-- Game-setup constant `MAZE_HEIGHT`. -/
def MAZE_HEIGHT : Int := 25

/-- Game-setup constant `VISION_RADIUS`. -/
def VISION_RADIUS : Int := 5

/-- Game-setup constant `GAME_TIME_LIMIT` (seconds). -/
def GAME_TIME_LIMIT : Rat := 300

/-- A maze is a list of rows, each row a list of cells; `1` = wall, `0` =
open, exactly the `List[List[int]]` of the source. Cell `(x, y)` is
`maze[y][x]`. -/
abbrev Maze := List (List Nat)

/-- Read `maze[y][x]`.  Out-of-range reads return the junk value `1`; every
read in the source is guarded by a bounds check, so the junk is never
relied upon. -/
def mazeAt (m : Maze) (x y : Int) : Nat :=
  (m.getD y.toNat []).getD x.toNat 1

/-- Write `maze[y][x] = v` (functional update of the nested lists). -/
def mazeSet (m : Maze) (x y : Int) (v : Nat) : Maze :=
  m.set y.toNat ((m.getD y.toNat []).set x.toNat v)

/-- 4-directional unit-step adjacency. -/
def Position.adjacent (p q : Position) : Prop :=
  (p.x - q.x).natAbs + (p.y - q.y).natAbs = 1

instance (p q : Position) : Decidable (p.adjacent q) := by
  unfold Position.adjacent; infer_instance

/-- `0 <= x < w and 0 <= y < h`. -/
def inBounds (w h : Int) (p : Position) : Prop :=
  0 ≤ p.x ∧ p.x < w ∧ 0 ≤ p.y ∧ p.y < h

instance (w h : Int) (p : Position) : Decidable (inBounds w h p) := by
  unfold inBounds; infer_instance

/-- One legal move of the grid walk: `q` is a 4-neighbour of `p`, in bounds,
and open. -/
def stepOpen (w h : Int) (m : Maze) (p q : Position) : Prop :=
  p.adjacent q ∧ inBounds w h q ∧ mazeAt m q.x q.y = 0

instance (w h : Int) (m : Maze) (p q : Position) : Decidable (stepOpen w h m p q) := by
  unfold stepOpen; infer_instance

/-- `g` is reachable from `s` by 4-directional moves through open in-bounds
cells (the openness of `s` itself is not part of the relation): the
reflexive-transitive closure of `stepOpen`. -/
def Reaches (w h : Int) (m : Maze) : Position → Position → Prop :=
  Relation.ReflTransGen (stepOpen w h m)

theorem Reaches.refl (w h : Int) (m : Maze) (s : Position) : Reaches w h m s s :=
  Relation.ReflTransGen.refl

/-- Opening cells can only create reachability, never destroy it. -/
theorem Reaches.mono {w h : Int} {m m' : Maze}
    (hm : ∀ p : Position, inBounds w h p → mazeAt m p.x p.y = 0 → mazeAt m' p.x p.y = 0)
    {s g : Position} (hr : Reaches w h m s g) : Reaches w h m' s g :=
  Relation.ReflTransGen.mono
    (fun _ b hab => ⟨hab.1, hab.2.1, hm b hab.2.1 hab.2.2⟩) hr

theorem Reaches.trans {w h : Int} {m : Maze} {a b c : Position}
    (h1 : Reaches w h m a b) (h2 : Reaches w h m b c) : Reaches w h m a c :=
  Relation.ReflTransGen.trans h1 h2

/-- Single step as reachability. -/
theorem Reaches.single {w h : Int} {m : Maze} {a b : Position}
    (hs : stepOpen w h m a b) : Reaches w h m a b :=
  Relation.ReflTransGen.single hs

/-- A `stepOpen`-chain from `s` reaches every element it contains, in
particular its last element. -/
theorem Reaches.of_chain {w h : Int} {m : Maze} {s : Position} {l : List Position}
    (hc : List.Chain (stepOpen w h m) s l) {g : Position} (hg : g ∈ s :: l) :
    Reaches w h m s g := by
  induction l generalizing s with
  | nil => simp at hg; subst hg; exact Reaches.refl _ _ _ _
  | cons p l ih =>
      rcases List.chain_cons.mp hc with ⟨h1, h2⟩
      rcases List.mem_cons.mp hg with hg | hg
      · subst hg; exact Reaches.refl _ _ _ _
      · exact Reaches.trans (Reaches.single h1) (ih h2 hg)

/-- The four candidate neighbour cells of `p`, in the source's probe order
`[(0, 1), (1, 0), (0, -1), (-1, 0)]`. -/
def neighbors4 (p : Position) : List Position :=
  [⟨p.x, p.y + 1⟩, ⟨p.x + 1, p.y⟩, ⟨p.x, p.y - 1⟩, ⟨p.x - 1, p.y⟩]

/-- Ground truth for the spec's "breadth-first shortest-path distance":
`reachInSteps w h m n s g` decides whether some `stepOpen`-walk of length at
most `n` leads from `s` to `g`.  The BFS distance from `s` to `g` is the
least such `n`. -/
def reachInSteps (w h : Int) (m : Maze) : Nat → Position → Position → Bool
  | 0, s, g => s = g
  | n + 1, s, g =>
      s = g || (neighbors4 s).any fun q =>
        decide (stepOpen w h m s q) && reachInSteps w h m n q g

theorem neighbors4_adjacent {p q : Position} (h : p.adjacent q) : q ∈ neighbors4 p := by
  obtain ⟨x, y⟩ := p
  obtain ⟨x', y'⟩ := q
  unfold Position.adjacent at h
  simp only at h
  simp only [neighbors4, List.mem_cons, List.not_mem_nil, or_false, Position.mk.injEq]
  omega

theorem reachInSteps_succ {w h : Int} {m : Maze} {n : Nat} {s g : Position} :
    reachInSteps w h m (n + 1) s g = true ↔
      s = g ∨ ∃ q ∈ neighbors4 s, stepOpen w h m s q ∧ reachInSteps w h m n q g = true := by
  simp [reachInSteps, List.any_eq_true]

theorem reachInSteps_mono {w h : Int} {m : Maze} {n n' : Nat} (hn : n ≤ n')
    {s g : Position} (hr : reachInSteps w h m n s g = true) :
    reachInSteps w h m n' s g = true := by
  induction n' generalizing n s with
  | zero =>
      have : n = 0 := Nat.le_zero.mp hn
      subst this
      exact hr
  | succ k ih =>
      rcases Nat.eq_or_lt_of_le hn with rfl | hlt
      · exact hr
      · rcases n with _ | n
        · simp only [reachInSteps, decide_eq_true_eq] at hr
          exact reachInSteps_succ.mpr (Or.inl hr)
        · rcases reachInSteps_succ.mp hr with hr' | ⟨q, hq, hs, hrec⟩
          · exact reachInSteps_succ.mpr (Or.inl hr')
          · exact reachInSteps_succ.mpr (Or.inr ⟨q, hq, hs, ih (by omega) hrec⟩)

/-- A valid chain of length `n` from `s` to `g` witnesses
`reachInSteps n s g`; hence the BFS distance is a lower bound on the length
of every valid path. -/
theorem reachInSteps_of_chain {w h : Int} {m : Maze} {s g : Position} {l : List Position}
    (hc : List.Chain (stepOpen w h m) s l) (hne : l ≠ [])
    (hg : l.getLast hne = g) : reachInSteps w h m l.length s g = true := by
  induction l generalizing s with
  | nil => exact absurd rfl hne
  | cons p l ih =>
      rcases List.chain_cons.mp hc with ⟨h1, h2⟩
      rcases l with _ | ⟨p', l'⟩
      · simp only [List.getLast] at hg
        exact reachInSteps_succ.mpr
          (Or.inr ⟨p, neighbors4_adjacent h1.1, h1, by simp [reachInSteps, hg]⟩)
      · have hg' : (p' :: l').getLast (by simp) = g := by
          simpa [List.getLast] using hg
        exact reachInSteps_succ.mpr
          (Or.inr ⟨p, neighbors4_adjacent h1.1, h1, ih h2 (by simp) hg'⟩)

/-- `reachInSteps` is sound for `Reaches`. -/
theorem reaches_of_reachInSteps {w h : Int} {m : Maze} {n : Nat} {s g : Position}
    (hr : reachInSteps w h m n s g = true) : Reaches w h m s g := by
  induction n generalizing s with
  | zero =>
      simp only [reachInSteps, decide_eq_true_eq] at hr
      subst hr; exact Reaches.refl _ _ _ _
  | succ k ih =>
      rcases reachInSteps_succ.mp hr with rfl | ⟨q, _, hs, hrec⟩
      · exact Reaches.refl _ _ _ _
      · exact Reaches.trans (Reaches.single hs) (ih hrec)

/-- The `Player` object (src/main.py lines 142-155).  `sprint_cooldown`,
`stealth_active`, `invincible_until`, `wall_pass_until` are wall-clock
instants (0 = unset), `move_delay` is a duration in seconds. -/
structure Player where
  pos : Position
  stars_collected : Nat
  sprint_cooldown : Rat
  stealth_charges : Int
  stealth_active : Rat
  last_move_time : Rat
  move_delay : Rat
  last_move_direction : Int × Int
  invincible_until : Rat
  wall_pass_until : Rat
deriving DecidableEq, Repr

/-- `Player.__init__(x, y)`. -/
def Player.init (x y : Int) : Player :=
  { pos := ⟨x, y⟩, stars_collected := 0, sprint_cooldown := 0, stealth_charges := 5,
    stealth_active := 0, last_move_time := 0, move_delay := 15 / 100,
    last_move_direction := (0, 0), invincible_until := 0, wall_pass_until := 0 }

/-- `Player.is_wall_passing`. -/
def Player.is_wall_passing (now : Rat) (p : Player) : Bool :=
  decide (now < p.wall_pass_until)

/-- `Player.is_invincible`. -/
def Player.is_invincible (now : Rat) (p : Player) : Bool :=
  decide (now < p.invincible_until)

/-- `Player.is_stealthed`: a read with lazy expiry — when the stealth window
has lapsed the call itself resets `stealth_active` to 0, so the possibly
updated player is returned alongside the answer. -/
def Player.is_stealthed (now : Rat) (p : Player) : Bool × Player :=
  if 0 < p.stealth_active then
    if now < p.stealth_active then (true, p)
    else (false, { p with stealth_active := 0 })
  else (false, p)

/-- `Player.move(dx, dy, maze)`.  `shiftHeld` is the polled state of the
left-shift key; the sampled `time.time()` is `now`. -/
def Player.move (now : Rat) (shiftHeld : Bool) (dx dy : Int) (maze : Maze)
    (p : Player) : Bool × Player :=
  let is_sprinting := shiftHeld && decide (p.sprint_cooldown ≤ 0)
  let move_delay_factor : Rat := if is_sprinting then 1 / 2 else 1
  if now - p.last_move_time < p.move_delay * move_delay_factor then (false, p)
  else
    let new_x := p.pos.x + dx
    let new_y := p.pos.y + dy
    if ¬(0 ≤ new_x ∧ new_x < MAZE_WIDTH ∧ 0 ≤ new_y ∧ new_y < MAZE_HEIGHT) then
      (false, p)
    else if p.is_wall_passing now || decide (mazeAt maze new_x new_y = 0) then
      (true, { p with pos := ⟨new_x, new_y⟩, last_move_time := now,
                      last_move_direction := (dx, dy) })
    else (false, p)

/-- `Player.activate_stealth()` (the game-message side effect is a no-op in
the embedding). -/
def Player.activate_stealth (now : Rat) (p : Player) : Player :=
  if 0 < p.stealth_charges ∧ p.stealth_active = 0 then
    { p with stealth_active := now + 5, stealth_charges := p.stealth_charges - 1 }
  else p

/-- A sequence of `activate_stealth` attempts at the given instants, paired
with the number of attempts that succeeded. -/
def Player.stealth_attempts : List Rat → Player → Player × Nat
  | [], p => (p, 0)
  | t :: ts, p =>
      let r := Player.stealth_attempts ts (Player.activate_stealth t p)
      if 0 < p.stealth_charges ∧ p.stealth_active = 0 then (r.1, r.2 + 1) else r

theorem activate_stealth_charges (now : Rat) (p : Player) :
    (Player.activate_stealth now p).stealth_charges =
      if 0 < p.stealth_charges ∧ p.stealth_active = 0 then p.stealth_charges - 1
      else p.stealth_charges := by
  unfold Player.activate_stealth
  split <;> rfl

theorem stealth_attempts_charges (ts : List Rat) (p : Player) :
    (Player.stealth_attempts ts p).1.stealth_charges =
      p.stealth_charges - (Player.stealth_attempts ts p).2 ∧
    ((Player.stealth_attempts ts p).2 : Int) ≤ max p.stealth_charges 0 := by
  induction ts generalizing p with
  | nil => simp [Player.stealth_attempts]
  | cons t ts ih =>
      have hic := ih (Player.activate_stealth t p)
      have hch := activate_stealth_charges t p
      simp only [Player.stealth_attempts]
      split
      · next hcond =>
          rw [if_pos hcond] at hch
          rw [hch] at hic
          refine ⟨?_, ?_⟩
          · simp only [hic.1]
            push_cast
            ring
          · have h2 := hic.2
            push_cast at h2 ⊢
            omega
      · next hcond =>
          rw [if_neg hcond] at hch
          rw [hch] at hic
          exact ⟨hic.1, hic.2⟩

/-- C5: `Player.move` returns failure and leaves the position, last-move
time and last-move direction unchanged exactly when the elapsed time since
the last successful move is below the applicable move delay (the baseline
delay, halved when the sprint modifier is held and the code's sprint gate
`sprint_cooldown <= 0` passes), or the destination lies outside the grid, or
the destination is a wall while wall-pass is inactive; on success it sets
the position to the destination, resets the last-move time, and records
`(dx, dy)` as the last move direction. -/
theorem player_move_spec (now : Rat) (shiftHeld : Bool) (dx dy : Int) (maze : Maze)
    (p : Player) :
    ((Player.move now shiftHeld dx dy maze p).1 = false ↔
        (now - p.last_move_time <
            p.move_delay * (if shiftHeld && decide (p.sprint_cooldown ≤ 0) then 1 / 2 else 1) ∨
          ¬ inBounds MAZE_WIDTH MAZE_HEIGHT ⟨p.pos.x + dx, p.pos.y + dy⟩ ∨
          (mazeAt maze (p.pos.x + dx) (p.pos.y + dy) ≠ 0 ∧
            p.is_wall_passing now = false))) ∧
    ((Player.move now shiftHeld dx dy maze p).1 = false →
        (Player.move now shiftHeld dx dy maze p).2 = p) ∧
    ((Player.move now shiftHeld dx dy maze p).1 = true →
        (Player.move now shiftHeld dx dy maze p).2 =
          { p with pos := ⟨p.pos.x + dx, p.pos.y + dy⟩, last_move_time := now,
                   last_move_direction := (dx, dy) }) := by
  unfold Player.move inBounds
  dsimp only
  split_ifs with h1 h2 h3 <;> simp_all <;> tauto

/-- C7: `activate_stealth` succeeds only when charges remain and stealth is
not already active; each success decrements `stealth_charges` by exactly 1
and arms a 5-second expiry window; across any sequence of attempts the
charge counter equals the initial count minus the number of successes, never
goes negative, and is never incremented. -/
theorem activate_stealth_spec (now : Rat) (p : Player) (ts : List Rat)
    (hch : 0 ≤ p.stealth_charges) :
    (Player.activate_stealth now p ≠ p →
        0 < p.stealth_charges ∧ p.stealth_active = 0 ∧ (p.is_stealthed now).1 = false) ∧
    (0 < p.stealth_charges ∧ p.stealth_active = 0 →
        (Player.activate_stealth now p).stealth_charges = p.stealth_charges - 1 ∧
        (Player.activate_stealth now p).stealth_active = now + 5) ∧
    ((Player.stealth_attempts ts p).1.stealth_charges =
        p.stealth_charges - (Player.stealth_attempts ts p).2 ∧
      0 ≤ (Player.stealth_attempts ts p).1.stealth_charges ∧
      (Player.stealth_attempts ts p).1.stealth_charges ≤ p.stealth_charges) := by
  have hrun := stealth_attempts_charges ts p
  refine ⟨?_, ?_, ?_, ?_, ?_⟩
  · intro hne
    unfold Player.activate_stealth at hne
    by_cases hcond : 0 < p.stealth_charges ∧ p.stealth_active = 0
    · refine ⟨hcond.1, hcond.2, ?_⟩
      unfold Player.is_stealthed
      rw [hcond.2]
      simp
    · rw [if_neg hcond] at hne
      exact absurd rfl hne
  · intro hcond
    unfold Player.activate_stealth
    rw [if_pos hcond]
    exact ⟨rfl, rfl⟩
  · exact hrun.1
  · have h2 := hrun.2
    rw [hrun.1]
    omega
  · rw [hrun.1]
    omega

/-- Witness for `activate_stealth_spec` at a fresh player and three attempt
instants. -/
theorem activate_stealth_spec_witness :
    0 ≤ (Player.init 1 1).stealth_charges ∧
    ((Player.activate_stealth 0 (Player.init 1 1) ≠ Player.init 1 1 →
        0 < (Player.init 1 1).stealth_charges ∧ (Player.init 1 1).stealth_active = 0 ∧
          ((Player.init 1 1).is_stealthed 0).1 = false) ∧
    (0 < (Player.init 1 1).stealth_charges ∧ (Player.init 1 1).stealth_active = 0 →
        (Player.activate_stealth 0 (Player.init 1 1)).stealth_charges =
            (Player.init 1 1).stealth_charges - 1 ∧
        (Player.activate_stealth 0 (Player.init 1 1)).stealth_active = 0 + 5) ∧
    ((Player.stealth_attempts [0, 1, 7] (Player.init 1 1)).1.stealth_charges =
        (Player.init 1 1).stealth_charges -
          (Player.stealth_attempts [0, 1, 7] (Player.init 1 1)).2 ∧
      0 ≤ (Player.stealth_attempts [0, 1, 7] (Player.init 1 1)).1.stealth_charges ∧
      (Player.stealth_attempts [0, 1, 7] (Player.init 1 1)).1.stealth_charges ≤
        (Player.init 1 1).stealth_charges)) :=
  ⟨by decide, activate_stealth_spec 0 (Player.init 1 1) [0, 1, 7] (by decide)⟩

/-- Test fixture: a 25x25 grid that is entirely open. -/
def mazeAllOpen : Maze := List.replicate 25 (List.replicate 25 0)

/-- Test fixture for C9: the sprint was used at t = 100, so `handle_input`
stored `sprint_cooldown = 100 + 3.0`; the last successful move was at
t = 199.9. -/
def sprintPlayer : Player :=
  { Player.init 1 1 with sprint_cooldown := 103, last_move_time := 1999 / 10 }

/-- C9 (code bug): the sprint gate tests `sprint_cooldown <= 0`, but
`handle_input` stores the wall-clock instant `time.time() + 3.0` there, so
once a sprint has been used the gate can never pass again — the delay is not
halved even though the 3-second cooldown has long elapsed.  Concretely: at
t = 200 — 97 seconds after the cooldown instant — a move with the modifier
held after 0.1 s ≥ the halved delay 0.075 s toward an open in-bounds cell is
rejected with no state change. -/
theorem sprint_gate_stays_closed :
    sprintPlayer.sprint_cooldown + 3 ≤ 200 ∧
    sprintPlayer.move_delay * (1 / 2) ≤ 200 - sprintPlayer.last_move_time ∧
    inBounds MAZE_WIDTH MAZE_HEIGHT ⟨2, 1⟩ ∧ mazeAt mazeAllOpen 2 1 = 0 ∧
    (Player.move 200 true 1 0 mazeAllOpen sprintPlayer).1 = false ∧
    (Player.move 200 true 1 0 mazeAllOpen sprintPlayer).2 = sprintPlayer := by
  have hmove : Player.move 200 true 1 0 mazeAllOpen sprintPlayer =
      (false, sprintPlayer) := by
    unfold Player.move
    norm_num [sprintPlayer, Player.init]
  refine ⟨by norm_num [sprintPlayer], by norm_num [sprintPlayer, Player.init],
    by decide, by decide, by rw [hmove], by rw [hmove]⟩

/-- The maze list has exactly `h` rows of `w` cells each (as built by
`MazeGenerator.__init__`). -/
def mazeDims (w h : Int) (m : Maze) : Prop :=
  m.length = h.toNat ∧ ∀ row ∈ m, row.length = w.toNat

/-- `MazeGenerator.__init__`: an all-wall `w * h` grid. -/
def mazeInit (w h : Int) : Maze :=
  List.replicate h.toNat (List.replicate w.toNat 1)

theorem mazeInit_dims (w h : Int) : mazeDims w h (mazeInit w h) := by
  constructor
  · simp [mazeInit]
  · intro row hrow
    rw [List.eq_of_mem_replicate hrow]
    simp

theorem mazeSet_dims {w h : Int} {m : Maze} (hm : mazeDims w h m) (x y : Int) (v : Nat) :
    mazeDims w h (mazeSet m x y v) := by
  obtain ⟨hlen, hrow⟩ := hm
  by_cases hy : y.toNat < m.length
  · constructor
    · simp [mazeSet, hlen]
    · intro row hrowmem
      rcases List.mem_or_eq_of_mem_set hrowmem with hmem | heq
      · exact hrow row hmem
      · subst heq
        rw [List.length_set]
        exact hrow _ (by rw [List.getD_eq_getElem _ _ hy]; exact List.getElem_mem _)
  · unfold mazeSet
    rw [List.set_eq_of_length_le (by omega)]
    exact ⟨hlen, hrow⟩

/-- Master pointwise description of `mazeSet`. -/
theorem mazeAt_mazeSet (m : Maze) (x y : Int) (v : Nat) (a b : Int) :
    mazeAt (mazeSet m x y v) a b =
      if y.toNat = b.toNat ∧ x.toNat = a.toNat ∧ y.toNat < m.length ∧
          x.toNat < (m.getD y.toNat []).length then v
      else mazeAt m a b := by
  unfold mazeAt mazeSet
  by_cases hyl : y.toNat < m.length
  · by_cases hyb : y.toNat = b.toNat
    · have hbrow : (m.set y.toNat ((m.getD y.toNat []).set x.toNat v)).getD b.toNat [] =
          (m.getD y.toNat []).set x.toNat v := by
        rw [List.getD_eq_getElem _ _ (by rw [List.length_set]; omega), List.getElem_set,
          if_pos hyb]
      have hbold : m.getD b.toNat [] = m.getD y.toNat [] := by rw [← hyb]
      rw [hbrow, hbold]
      by_cases hxl : x.toNat < (m.getD y.toNat []).length
      · by_cases hal : a.toNat < (m.getD y.toNat []).length
        · by_cases hxa : x.toNat = a.toNat
          · have hcell : ((m.getD y.toNat []).set x.toNat v).getD a.toNat 1 = v := by
              rw [List.getD_eq_getElem _ _ (by rw [List.length_set]; exact hal),
                List.getElem_set, if_pos hxa]
            rw [hcell, if_pos ⟨hyb, hxa, hyl, hxl⟩]
          · have hcell : ((m.getD y.toNat []).set x.toNat v).getD a.toNat 1 =
                (m.getD y.toNat []).getD a.toNat 1 := by
              rw [List.getD_eq_getElem _ _ (by rw [List.length_set]; exact hal),
                List.getElem_set, if_neg hxa, List.getD_eq_getElem _ _ hal]
            rw [hcell, if_neg (by rintro ⟨-, hxa2, -, -⟩; exact hxa hxa2)]
        · have h1 : ((m.getD y.toNat []).set x.toNat v).getD a.toNat 1 = 1 :=
            List.getD_eq_default _ _ (by rw [List.length_set]; omega)
          have h2 : (m.getD y.toNat []).getD a.toNat 1 = 1 :=
            List.getD_eq_default _ _ (by omega)
          rw [h1, h2, if_neg (by rintro ⟨-, hxa2, -, -⟩; exact hal (hxa2 ▸ hxl))]
      · rw [List.set_eq_of_length_le (by omega), if_neg (by rintro ⟨-, -, -, hxl2⟩; exact hxl hxl2)]
    · rw [if_neg (by rintro ⟨hyb2, -, -, -⟩; exact hyb hyb2)]
      by_cases hbml : b.toNat < m.length
      · have hrow : (m.set y.toNat ((m.getD y.toNat []).set x.toNat v)).getD b.toNat [] =
            m.getD b.toNat [] := by
          rw [List.getD_eq_getElem _ _ (by rw [List.length_set]; exact hbml),
            List.getElem_set, if_neg hyb, List.getD_eq_getElem _ _ hbml]
        rw [hrow]
      · have h1 : (m.set y.toNat ((m.getD y.toNat []).set x.toNat v)).getD b.toNat [] =
            ([] : List Nat) :=
          List.getD_eq_default _ _ (by rw [List.length_set]; omega)
        have h2 : m.getD b.toNat [] = ([] : List Nat) :=
          List.getD_eq_default _ _ (by omega)
        rw [h1, h2]
  · rw [List.set_eq_of_length_le (by omega), if_neg (by rintro ⟨-, -, hyl2, -⟩; exact hyl hyl2)]

theorem mazeAt_mazeSet_self {w h : Int} {m : Maze} (hm : mazeDims w h m)
    {x y : Int} (hx : 0 ≤ x ∧ x < w) (hy : 0 ≤ y ∧ y < h) (v : Nat) :
    mazeAt (mazeSet m x y v) x y = v := by
  obtain ⟨hlen, hrow⟩ := hm
  have hyl : y.toNat < m.length := by omega
  have hxl : x.toNat < (m.getD y.toNat []).length := by
    rw [hrow _ (by rw [List.getD_eq_getElem _ _ hyl]; exact List.getElem_mem _)]
    omega
  rw [mazeAt_mazeSet, if_pos ⟨rfl, rfl, hyl, hxl⟩]

/-- Writing a `0` never closes a cell: afterwards every cell reads either
`0` or its old value. -/
theorem mazeAt_mazeSet_zero (m : Maze) (x y a b : Int) :
    mazeAt (mazeSet m x y 0) a b = 0 ∨ mazeAt (mazeSet m x y 0) a b = mazeAt m a b := by
  rw [mazeAt_mazeSet]
  split
  · exact Or.inl rfl
  · exact Or.inr rfl

/-- Writing a `0` preserves openness of every cell. -/
theorem mazeAt_mazeSet_zero_open {m : Maze} {x y a b : Int}
    (h : mazeAt m a b = 0) : mazeAt (mazeSet m x y 0) a b = 0 := by
  rcases mazeAt_mazeSet_zero m x y a b with h0 | h0 <;> rw [h0]
  exact h

/-- Number of wall cells in a row. -/
def rowWalls (row : List Nat) : Nat := row.countP (· == 1)

/-- Number of wall cells in the whole maze (termination measure of the
carving loop). -/
def wallCount (m : Maze) : Nat := (m.map rowWalls).sum

theorem rowWalls_set_zero_le (row : List Nat) (i : Nat) :
    rowWalls (row.set i 0) ≤ rowWalls row := by
  induction row generalizing i with
  | nil => simp
  | cons hd tl ih =>
      cases i with
      | zero => simp [rowWalls, List.countP_cons]
      | succ j =>
          simp only [List.set_cons_succ, rowWalls, List.countP_cons]
          have := ih j
          unfold rowWalls at this
          omega

theorem rowWalls_set_zero_lt (row : List Nat) (i : Nat) (hi : i < row.length)
    (h1 : row.getD i 1 = 1) : rowWalls (row.set i 0) < rowWalls row := by
  induction row generalizing i with
  | nil => simp at hi
  | cons hd tl ih =>
      cases i with
      | zero =>
          simp only [List.getD_cons_zero] at h1
          simp [rowWalls, List.countP_cons, h1]
      | succ j =>
          simp only [List.getD_cons_succ] at h1
          simp only [List.set_cons_succ, rowWalls, List.countP_cons]
          have := ih j (by simpa using hi) h1
          unfold rowWalls at this
          omega

theorem wallCount_mazeSet_zero_le (m : Maze) (x y : Int) :
    wallCount (mazeSet m x y 0) ≤ wallCount m := by
  unfold mazeSet wallCount
  generalize y.toNat = yt
  induction m generalizing yt with
  | nil => simp
  | cons hd tl ih =>
      cases yt with
      | zero =>
          simp only [List.getD_cons_zero, List.set_cons_zero, List.map_cons, List.sum_cons]
          have := rowWalls_set_zero_le hd x.toNat
          omega
      | succ j =>
          simp only [List.getD_cons_succ, List.set_cons_succ, List.map_cons, List.sum_cons]
          have := ih j
          omega

theorem wallCount_mazeSet_zero_lt (m : Maze) (x y : Int)
    (hyl : y.toNat < m.length) (hxl : x.toNat < (m.getD y.toNat []).length)
    (h1 : mazeAt m x y = 1) : wallCount (mazeSet m x y 0) < wallCount m := by
  unfold mazeAt at h1
  unfold mazeSet wallCount
  revert hyl hxl h1
  generalize y.toNat = yt
  intro hyl hxl h1
  induction m generalizing yt with
  | nil => simp at hyl
  | cons hd tl ih =>
      cases yt with
      | zero =>
          simp only [List.getD_cons_zero] at hxl h1
          simp only [List.getD_cons_zero, List.set_cons_zero, List.map_cons, List.sum_cons]
          have := rowWalls_set_zero_lt hd x.toNat hxl h1
          omega
      | succ j =>
          simp only [List.getD_cons_succ] at hxl h1
          simp only [List.getD_cons_succ, List.set_cons_succ, List.map_cons, List.sum_cons]
          have := ih j (by simpa using hyl) hxl h1
          omega

/-- The neighbour candidates of the carving loop: cells exactly two away in
the probe order `[(0, 2), (2, 0), (0, -2), (-2, 0)]` that lie strictly inside
the border and are still walls, paired with the connecting cell between. -/
def carveNeighbors (w h : Int) (m : Maze) (cx cy : Int) :
    List (Int × Int × Int × Int) :=
  ([(0, 2), (2, 0), (0, -2), (-2, 0)] : List (Int × Int)).filterMap fun d =>
    if 1 ≤ cx + d.1 ∧ cx + d.1 < w - 1 ∧ 1 ≤ cy + d.2 ∧ cy + d.2 < h - 1 ∧
        mazeAt m (cx + d.1) (cy + d.2) = 1 then
      some (cx + d.1, cy + d.2, cx + d.1 / 2, cy + d.2 / 2)
    else none

theorem carveNeighbors_mem {w h : Int} {m : Maze} {cx cy : Int}
    {c : Int × Int × Int × Int} (hc : c ∈ carveNeighbors w h m cx cy) :
    ∃ d ∈ ([(0, 2), (2, 0), (0, -2), (-2, 0)] : List (Int × Int)),
      c = (cx + d.1, cy + d.2, cx + d.1 / 2, cy + d.2 / 2) ∧
      1 ≤ cx + d.1 ∧ cx + d.1 < w - 1 ∧ 1 ≤ cy + d.2 ∧ cy + d.2 < h - 1 ∧
      mazeAt m (cx + d.1) (cy + d.2) = 1 := by
  unfold carveNeighbors at hc
  rcases List.mem_filterMap.mp hc with ⟨d, hd, heq⟩
  refine ⟨d, hd, ?_⟩
  by_cases hcond : 1 ≤ cx + d.1 ∧ cx + d.1 < w - 1 ∧ 1 ≤ cy + d.2 ∧ cy + d.2 < h - 1 ∧
      mazeAt m (cx + d.1) (cy + d.2) = 1
  · rw [if_pos hcond] at heq
    cases heq
    exact ⟨rfl, hcond⟩
  · rw [if_neg hcond] at heq
    cases heq

/-- The carving loop of `MazeGenerator.generate` (the `while stack:` loop).
The stack top is modeled as the list head; `k` indexes the random stream.
The `mazeDims` argument records that the grid really is `w * h` (true for
every maze the generator builds), which bounds the loop. -/
def carve (w h : Int) (rng : Nat → Nat) :
    Nat → (m : Maze) → mazeDims w h m → List (Int × Int) → Maze × Nat
  | k, m, _, [] => (m, k)
  | k, m, hm, (cx, cy) :: rest =>
      let neighbors := carveNeighbors w h m cx cy
      if hne : neighbors = [] then carve w h rng k m hm rest
      else
        let c := neighbors.getD (rng k % neighbors.length) (0, 0, 0, 0)
        let m2 := mazeSet (mazeSet m c.1 c.2.1 0) c.2.2.1 c.2.2.2 0
        carve w h rng (k + 1) m2
          (mazeSet_dims (mazeSet_dims hm _ _ _) _ _ _) ((c.1, c.2.1) :: (cx, cy) :: rest)
termination_by k m hm stack => 2 * wallCount m + stack.length
decreasing_by
  · simp only [List.length_cons]
    omega
  · simp only [List.length_cons]
    set nb := carveNeighbors w h m cx cy with hnb
    set c := nb.getD (rng k % nb.length) (0, 0, 0, 0) with hcdef
    have hnbne : nb ≠ [] := hne
    have hcmem : c ∈ nb := by
      rw [hcdef, List.getD_eq_getElem _ _ (Nat.mod_lt _ (List.length_pos.mpr hnbne))]
      exact List.getElem_mem _
    rcases carveNeighbors_mem hcmem with ⟨d, _, heq, hb1, hb2, hb3, hb4, hwall⟩
    have hyl : c.2.1.toNat < m.length := by
      rw [heq, hm.1]
      simp only
      omega
    have hxl : c.1.toNat < (m.getD c.2.1.toNat []).length := by
      have hrowmem : m.getD c.2.1.toNat [] ∈ m := by
        rw [List.getD_eq_getElem _ _ hyl]
        exact List.getElem_mem _
      rw [hm.2 _ hrowmem, heq]
      simp only
      omega
    have hlt := wallCount_mazeSet_zero_lt m c.1 c.2.1 hyl hxl (by rw [heq]; simpa using hwall)
    have hle := wallCount_mazeSet_zero_le (mazeSet m c.1 c.2.1 0) c.2.2.1 c.2.2.2
    omega

/-- Case description of a `mazeSet`: either the addressed cell (by the list
indices actually used) was written, or the read is unchanged. -/
theorem mazeAt_mazeSet_cases (m : Maze) (x y : Int) (v : Nat) (a b : Int) :
    (x.toNat = a.toNat ∧ y.toNat = b.toNat ∧ mazeAt (mazeSet m x y v) a b = v) ∨
    mazeAt (mazeSet m x y v) a b = mazeAt m a b := by
  rw [mazeAt_mazeSet]
  split
  · next hcond => exact Or.inl ⟨hcond.2.1, hcond.1, rfl⟩
  · exact Or.inr rfl

/-- The wall-removal pass of `MazeGenerator.generate` (the
`for _ in range(width * height // 20)` loop): sample an interior cell; if it
is a wall with at least two open orthogonal neighbours, open it. -/
def removalPass (w h : Int) (rng : Nat → Nat) : Nat → Nat → Maze → Maze
  | 0, _, m => m
  | n + 1, k, m =>
      let x : Int := 1 + ((rng k % (w - 2).toNat : Nat) : Int)
      let y : Int := 1 + ((rng (k + 1) % (h - 2).toNat : Nat) : Int)
      let m' :=
        if mazeAt m x y = 1 ∧
            2 ≤ (([((0 : Int), (1 : Int)), (1, 0), (0, -1), (-1, 0)]).countP fun d =>
              decide (mazeAt m (x + d.1) (y + d.2) = 0)) then
          mazeSet m x y 0
        else m
      removalPass w h rng n (k + 2) m'

/-- `MazeGenerator(w, h)` followed by `MazeGenerator.generate()`: DFS carving
from `(1, 1)`, then the wall-removal pass, then `maze[1][1] = 0`. -/
def MazeGenerator.generate (w h : Int) (rng : Nat → Nat) : Maze :=
  let m0 := mazeSet (mazeInit w h) 1 1 0
  let r := carve w h rng 0 m0 (mazeSet_dims (mazeInit_dims w h) 1 1 0) [(1, 1)]
  let m2 := removalPass w h rng ((w * h).toNat / 20) r.2 r.1
  mazeSet m2 1 1 0

/-- Every open in-bounds cell is reachable from `(1, 1)`. -/
def mazeConnected (w h : Int) (m : Maze) : Prop :=
  ∀ p : Position, inBounds w h p → mazeAt m p.x p.y = 0 → Reaches w h m ⟨1, 1⟩ p

/-- Geometry of a chosen carving candidate: interior wall cell two steps from
the (interior) stack top, with the connecting cell adjacent to both and in
bounds. -/
theorem carve_pick_spec {w h : Int} {m : Maze} {cx cy : Int}
    (hcx : 1 ≤ cx ∧ cx < w - 1) (hcy : 1 ≤ cy ∧ cy < h - 1)
    {c : Int × Int × Int × Int} (hc : c ∈ carveNeighbors w h m cx cy) :
    1 ≤ c.1 ∧ c.1 < w - 1 ∧ 1 ≤ c.2.1 ∧ c.2.1 < h - 1 ∧ mazeAt m c.1 c.2.1 = 1 ∧
    Position.adjacent ⟨cx, cy⟩ ⟨c.2.2.1, c.2.2.2⟩ ∧
    Position.adjacent ⟨c.2.2.1, c.2.2.2⟩ ⟨c.1, c.2.1⟩ ∧
    0 ≤ c.2.2.1 ∧ c.2.2.1 < w ∧ 0 ≤ c.2.2.2 ∧ c.2.2.2 < h := by
  rcases carveNeighbors_mem hc with ⟨d, hd, heq, hb1, hb2, hb3, hb4, hwall⟩
  simp only [List.mem_cons, List.not_mem_nil, or_false] at hd
  rcases hd with rfl | rfl | rfl | rfl <;>
    (subst heq
     simp only [Position.adjacent] at hb1 hb2 hb3 hb4 hwall ⊢
     norm_num at hb1 hb2 hb3 hb4 hwall ⊢
     refine ⟨by omega, by omega, ?_, ?_, by omega, by omega, by omega, by omega⟩ <;>
       first
         | exact hwall
         | omega)

theorem carve_inv (w h : Int) (rng : Nat → Nat) :
    ∀ (N k : Nat) (m : Maze) (hm : mazeDims w h m) (stack : List (Int × Int)),
      2 * wallCount m + stack.length ≤ N →
      mazeAt m 1 1 = 0 →
      (∀ s ∈ stack, 1 ≤ s.1 ∧ s.1 < w - 1 ∧ 1 ≤ s.2 ∧ s.2 < h - 1 ∧
        mazeAt m s.1 s.2 = 0) →
      mazeConnected w h m →
      mazeAt (carve w h rng k m hm stack).1 1 1 = 0 ∧
      mazeConnected w h (carve w h rng k m hm stack).1 ∧
      mazeDims w h (carve w h rng k m hm stack).1 := by
  intro N
  induction N with
  | zero =>
      intro k m hm stack hN h11 hstack hconn
      have : stack = [] := by
        cases stack with
        | nil => rfl
        | cons a l => simp at hN
      subst this
      rw [carve]
      exact ⟨h11, hconn, hm⟩
  | succ N ih =>
      intro k m hm stack hN h11 hstack hconn
      cases stack with
      | nil =>
          rw [carve]
          exact ⟨h11, hconn, hm⟩
      | cons top rest =>
          obtain ⟨cx, cy⟩ := top
          rw [carve]
          split
          · -- no candidates: pop
            exact ih k m hm rest (by simp at hN ⊢; omega) h11
              (fun s hs => hstack s (List.mem_cons_of_mem _ hs)) hconn
          · next hne =>
            -- carve the chosen candidate and its connecting cell, push
            set nb := carveNeighbors w h m cx cy with hnb
            set c := nb.getD (rng k % nb.length) (0, 0, 0, 0) with hcdef
            have hcmem : c ∈ nb := by
              rw [hcdef, List.getD_eq_getElem _ _ (Nat.mod_lt _ (List.length_pos.mpr hne))]
              exact List.getElem_mem _
            have htop := hstack (cx, cy) (List.mem_cons_self _ _)
            simp only at htop
            obtain ⟨hn1, hn2, hn3, hn4, hwall, hadj1, hadj2, hm1, hm2, hm3, hm4⟩ :=
              carve_pick_spec ⟨htop.1, htop.2.1⟩ ⟨htop.2.2.1, htop.2.2.2.1⟩ hcmem
            set mA := mazeSet m c.1 c.2.1 0 with hmA
            set mB := mazeSet mA c.2.2.1 c.2.2.2 0 with hmB
            have hdimsA : mazeDims w h mA := mazeSet_dims hm _ _ _
            have hdimsB : mazeDims w h mB := mazeSet_dims hdimsA _ _ _
            -- the two newly opened cells
            have hopenA : mazeAt mA c.1 c.2.1 = 0 :=
              mazeAt_mazeSet_self hm ⟨by omega, by omega⟩ ⟨by omega, by omega⟩ 0
            have hopenAB : mazeAt mB c.1 c.2.1 = 0 := mazeAt_mazeSet_zero_open hopenA
            have hopenB : mazeAt mB c.2.2.1 c.2.2.2 = 0 :=
              mazeAt_mazeSet_self hdimsA ⟨hm1, hm2⟩ ⟨hm3, hm4⟩ 0
            -- openness is preserved from m to mB
            have hpres : ∀ a b : Int, mazeAt m a b = 0 → mazeAt mB a b = 0 :=
              fun a b hab => mazeAt_mazeSet_zero_open (mazeAt_mazeSet_zero_open hab)
            have hmono : ∀ p q : Position, Reaches w h m p q → Reaches w h mB p q :=
              fun p q => Reaches.mono (fun r _ hr => hpres r.x r.y hr)
            -- (1,1) still open, stack cells still open
            have h11B : mazeAt mB 1 1 = 0 := hpres 1 1 h11
            -- reach the connecting cell and the carved cell in mB
            have hreachTop : Reaches w h mB ⟨1, 1⟩ ⟨cx, cy⟩ :=
              hmono _ _ (hconn ⟨cx, cy⟩ (by simp only [inBounds]; omega) htop.2.2.2.2)
            have hreachMid : Reaches w h mB ⟨1, 1⟩ ⟨c.2.2.1, c.2.2.2⟩ :=
              Reaches.trans hreachTop (Reaches.single ⟨hadj1, ⟨hm1, hm2, hm3, hm4⟩, hopenB⟩)
            have hreachNew : Reaches w h mB ⟨1, 1⟩ ⟨c.1, c.2.1⟩ :=
              Reaches.trans hreachMid (Reaches.single
                ⟨hadj2, by simp only [inBounds]; omega, hopenAB⟩)
            -- connectivity of mB
            have hconnB : mazeConnected w h mB := by
              intro p hp hopen
              have hp' : 0 ≤ p.x ∧ p.x < w ∧ 0 ≤ p.y ∧ p.y < h := hp
              rcases mazeAt_mazeSet_cases mA c.2.2.1 c.2.2.2 0 p.x p.y with
                ⟨hx, hy, _⟩ | hBkeep
              · have hpx : p.x = c.2.2.1 := by omega
                have hpy : p.y = c.2.2.2 := by omega
                have hpe : p = (⟨c.2.2.1, c.2.2.2⟩ : Position) := by
                  obtain ⟨px, py⟩ := p
                  simp only [Position.mk.injEq]
                  exact ⟨hpx, hpy⟩
                rw [hpe]
                exact hreachMid
              · rw [hmB] at hopen
                rw [hBkeep] at hopen
                rcases mazeAt_mazeSet_cases m c.1 c.2.1 0 p.x p.y with
                  ⟨hx, hy, _⟩ | hAkeep
                · have hpx : p.x = c.1 := by omega
                  have hpy : p.y = c.2.1 := by omega
                  have hpe : p = (⟨c.1, c.2.1⟩ : Position) := by
                    obtain ⟨px, py⟩ := p
                    simp only [Position.mk.injEq]
                    exact ⟨hpx, hpy⟩
                  rw [hpe]
                  exact hreachNew
                · rw [hAkeep] at hopen
                  exact hmono _ _ (hconn p hp hopen)
            -- stack invariant for the pushed stack
            have hstackB : ∀ s ∈ ((c.1, c.2.1) :: (cx, cy) :: rest),
                1 ≤ s.1 ∧ s.1 < w - 1 ∧ 1 ≤ s.2 ∧ s.2 < h - 1 ∧
                  mazeAt mB s.1 s.2 = 0 := by
              intro s hs
              rcases List.mem_cons.mp hs with rfl | hs'
              · exact ⟨hn1, hn2, hn3, hn4, hopenAB⟩
              · have := hstack s hs'
                exact ⟨this.1, this.2.1, this.2.2.1, this.2.2.2.1,
                  hpres _ _ this.2.2.2.2⟩
            -- measure decreases
            have hyl : c.2.1.toNat < m.length := by rw [hm.1]; omega
            have hxl : c.1.toNat < (m.getD c.2.1.toNat []).length := by
              have hrowmem : m.getD c.2.1.toNat [] ∈ m := by
                rw [List.getD_eq_getElem _ _ hyl]
                exact List.getElem_mem _
              rw [hm.2 _ hrowmem]
              omega
            have hlt := wallCount_mazeSet_zero_lt m c.1 c.2.1 hyl hxl hwall
            have hle := wallCount_mazeSet_zero_le mA c.2.2.1 c.2.2.2
            rw [← hmA] at hlt
            rw [← hmB] at hle
            exact ih (k + 1) mB hdimsB _ (by simp at hN ⊢; omega) h11B hstackB hconnB

theorem mazeAt_mazeInit (w h a b : Int) : mazeAt (mazeInit w h) a b = 1 := by
  unfold mazeAt mazeInit
  by_cases hb : b.toNat < h.toNat
  · have hrow : (List.replicate h.toNat (List.replicate w.toNat (1 : Nat))).getD b.toNat []
        = List.replicate w.toNat 1 := by
      rw [List.getD_eq_getElem _ _ (by rw [List.length_replicate]; exact hb),
        List.getElem_replicate]
    rw [hrow]
    by_cases ha : a.toNat < w.toNat
    · rw [List.getD_eq_getElem _ _ (by rw [List.length_replicate]; exact ha),
        List.getElem_replicate]
    · rw [List.getD_eq_default _ _ (by rw [List.length_replicate]; omega)]
  · have hrow : (List.replicate h.toNat (List.replicate w.toNat (1 : Nat))).getD b.toNat []
        = [] := List.getD_eq_default _ _ (by rw [List.length_replicate]; omega)
    rw [hrow]
    rfl

theorem removalPass_inv (w h : Int) (rng : Nat → Nat) (hw : 3 ≤ w) (hh : 3 ≤ h) :
    ∀ (n k : Nat) (m : Maze), mazeDims w h m →
      mazeAt m 1 1 = 0 → mazeConnected w h m →
      mazeAt (removalPass w h rng n k m) 1 1 = 0 ∧
      mazeConnected w h (removalPass w h rng n k m) ∧
      mazeDims w h (removalPass w h rng n k m) := by
  intro n
  induction n with
  | zero =>
      intro k m hdims h11 hconn
      rw [removalPass]
      exact ⟨h11, hconn, hdims⟩
  | succ n ih =>
      intro k m hdims h11 hconn
      rw [removalPass]
      split
      · next hcond =>
        set x : Int := 1 + ((rng k % (w - 2).toNat : Nat) : Int) with hxdef
        set y : Int := 1 + ((rng (k + 1) % (h - 2).toNat : Nat) : Int) with hydef
        have hxr : 1 ≤ x ∧ x ≤ w - 2 := by
          constructor
          · rw [hxdef]; omega
          · rw [hxdef]
            have := Nat.mod_lt (rng k) (y := (w - 2).toNat) (by omega)
            omega
        have hyr : 1 ≤ y ∧ y ≤ h - 2 := by
          constructor
          · rw [hydef]; omega
          · rw [hydef]
            have := Nat.mod_lt (rng (k + 1)) (y := (h - 2).toNat) (by omega)
            omega
        set m' := mazeSet m x y 0 with hm'
        have hdims' : mazeDims w h m' := mazeSet_dims hdims _ _ _
        have hopenxy : mazeAt m' x y = 0 :=
          mazeAt_mazeSet_self hdims ⟨by omega, by omega⟩ ⟨by omega, by omega⟩ 0
        have hpres : ∀ a b : Int, mazeAt m a b = 0 → mazeAt m' a b = 0 :=
          fun a b hab => mazeAt_mazeSet_zero_open hab
        have hmono : ∀ p q : Position, Reaches w h m p q → Reaches w h m' p q :=
          fun p q => Reaches.mono (fun r _ hr => hpres r.x r.y hr)
        -- some orthogonal neighbour of (x, y) is open in m
        have hnb : ∃ d ∈ ([((0 : Int), (1 : Int)), (1, 0), (0, -1), (-1, 0)]),
            mazeAt m (x + d.1) (y + d.2) = 0 := by
          have hpos : 0 < (([((0 : Int), (1 : Int)), (1, 0), (0, -1), (-1, 0)]).countP
              fun d => decide (mazeAt m (x + d.1) (y + d.2) = 0)) := by omega
          rcases List.countP_pos.mp hpos with ⟨d, hd, hdp⟩
          exact ⟨d, hd, by simpa using hdp⟩
        have hreachxy : Reaches w h m' ⟨1, 1⟩ ⟨x, y⟩ := by
          rcases hnb with ⟨d, hd, hdopen⟩
          have hdq : inBounds w h ⟨x + d.1, y + d.2⟩ := by
            simp only [List.mem_cons, List.not_mem_nil, or_false] at hd
            rcases hd with rfl | rfl | rfl | rfl <;> (simp only [inBounds]; omega)
          have hadj : Position.adjacent ⟨x + d.1, y + d.2⟩ ⟨x, y⟩ := by
            simp only [List.mem_cons, List.not_mem_nil, or_false] at hd
            rcases hd with rfl | rfl | rfl | rfl <;> (simp only [Position.adjacent]; omega)
          have hq := hconn ⟨x + d.1, y + d.2⟩ hdq hdopen
          exact Reaches.trans (hmono _ _ hq)
            (Reaches.single ⟨hadj, (by simp only [inBounds]; omega), hopenxy⟩)
        have hconn' : mazeConnected w h m' := by
          intro p hp hopen
          have hp' : 0 ≤ p.x ∧ p.x < w ∧ 0 ≤ p.y ∧ p.y < h := hp
          rcases mazeAt_mazeSet_cases m x y 0 p.x p.y with ⟨hxx, hyy, _⟩ | hkeep
          · have hpx : p.x = x := by omega
            have hpy : p.y = y := by omega
            have hpe : p = (⟨x, y⟩ : Position) := by
              obtain ⟨px, py⟩ := p
              simp only [Position.mk.injEq]
              exact ⟨hpx, hpy⟩
            rw [hpe]
            exact hreachxy
          · rw [hm'] at hopen
            rw [hkeep] at hopen
            exact hmono _ _ (hconn p hp hopen)
        exact ih (k + 2) m' hdims' (hpres 1 1 h11) hconn'
      · exact ih (k + 2) m hdims h11 hconn

/-- C2: after `MazeGenerator.generate()` returns, cell `(1, 1)` is open, and
every open in-bounds cell of the resulting grid is reachable from `(1, 1)`
via 4-directional moves through open cells — the DFS carving plus the
post-hoc wall-removal pass never creates a disconnected open cell. -/
theorem generate_start_open_and_connected (w h : Int) (rng : Nat → Nat)
    (hw : 3 ≤ w) (hh : 3 ≤ h) :
    mazeAt (MazeGenerator.generate w h rng) 1 1 = 0 ∧
    mazeConnected w h (MazeGenerator.generate w h rng) := by
  have hdims0 : mazeDims w h (mazeSet (mazeInit w h) 1 1 0) :=
    mazeSet_dims (mazeInit_dims w h) 1 1 0
  have h11 : mazeAt (mazeSet (mazeInit w h) 1 1 0) 1 1 = 0 :=
    mazeAt_mazeSet_self (mazeInit_dims w h) ⟨by omega, by omega⟩ ⟨by omega, by omega⟩ 0
  have hconn0 : mazeConnected w h (mazeSet (mazeInit w h) 1 1 0) := by
    intro p hp hopen
    have hp' : 0 ≤ p.x ∧ p.x < w ∧ 0 ≤ p.y ∧ p.y < h := hp
    rcases mazeAt_mazeSet_cases (mazeInit w h) 1 1 0 p.x p.y with ⟨hxx, hyy, _⟩ | hkeep
    · have hpx : p.x = 1 := by omega
      have hpy : p.y = 1 := by omega
      have hpe : p = (⟨1, 1⟩ : Position) := by
        obtain ⟨px, py⟩ := p
        simp only [Position.mk.injEq]
        exact ⟨hpx, hpy⟩
      rw [hpe]
      exact Reaches.refl _ _ _ _
    · rw [hkeep, mazeAt_mazeInit] at hopen
      cases hopen
  have hcarve := carve_inv w h rng
    (2 * wallCount (mazeSet (mazeInit w h) 1 1 0) + 1) 0
    (mazeSet (mazeInit w h) 1 1 0) hdims0 [(1, 1)]
    (by simp) h11
    (by
      intro s hs
      simp only [List.mem_cons, List.not_mem_nil, or_false] at hs
      subst hs
      refine ⟨by norm_num, by omega, by norm_num, by omega, h11⟩)
    hconn0
  have hremoval := removalPass_inv w h rng hw hh ((w * h).toNat / 20)
    (carve w h rng 0 (mazeSet (mazeInit w h) 1 1 0)
      (mazeSet_dims (mazeInit_dims w h) 1 1 0) [(1, 1)]).2
    (carve w h rng 0 (mazeSet (mazeInit w h) 1 1 0)
      (mazeSet_dims (mazeInit_dims w h) 1 1 0) [(1, 1)]).1
    hcarve.2.2 hcarve.1 hcarve.2.1
  unfold MazeGenerator.generate
  constructor
  · exact mazeAt_mazeSet_self hremoval.2.2 ⟨by omega, by omega⟩ ⟨by omega, by omega⟩ 0
  · intro p hp hopen
    have hp' : 0 ≤ p.x ∧ p.x < w ∧ 0 ≤ p.y ∧ p.y < h := hp
    rcases mazeAt_mazeSet_cases
      (removalPass w h rng ((w * h).toNat / 20)
        (carve w h rng 0 (mazeSet (mazeInit w h) 1 1 0)
          (mazeSet_dims (mazeInit_dims w h) 1 1 0) [(1, 1)]).2
        (carve w h rng 0 (mazeSet (mazeInit w h) 1 1 0)
          (mazeSet_dims (mazeInit_dims w h) 1 1 0) [(1, 1)]).1)
      1 1 0 p.x p.y with ⟨hxx, hyy, _⟩ | hkeep
    · have hpx : p.x = 1 := by omega
      have hpy : p.y = 1 := by omega
      have hpe : p = (⟨1, 1⟩ : Position) := by
        obtain ⟨px, py⟩ := p
        simp only [Position.mk.injEq]
        exact ⟨hpx, hpy⟩
      rw [hpe]
      exact Reaches.refl _ _ _ _
    · rw [hkeep] at hopen
      exact Reaches.mono (fun r _ hr => mazeAt_mazeSet_zero_open hr)
        (hremoval.2.1 p hp hopen)

/-- Witness for `generate_start_open_and_connected` at the game's actual
25 x 25 size and an arbitrary concrete random stream. -/
theorem generate_start_open_and_connected_witness :
    (3 ≤ (25 : Int)) ∧ (3 ≤ (25 : Int)) ∧
    (mazeAt (MazeGenerator.generate 25 25 (fun _ => 0)) 1 1 = 0 ∧
      mazeConnected 25 25 (MazeGenerator.generate 25 25 (fun _ => 0))) :=
  ⟨by decide, by decide,
    generate_start_open_and_connected 25 25 (fun _ => 0) (by decide) (by decide)⟩

/-- All cells of the maze lists are `0` or `1` (true of every maze the
program builds; `find_path_astar` tests walls with `== 1`, movement tests
open with `== 0`, and the two coincide exactly on such grids). -/
def mazeBinary (m : Maze) : Prop := ∀ row ∈ m, ∀ c ∈ row, c = 0 ∨ c = 1

instance (m : Maze) : Decidable (mazeBinary m) := by
  unfold mazeBinary; infer_instance

theorem mazeBinary_at {m : Maze} (hm : mazeBinary m) (x y : Int) :
    mazeAt m x y = 0 ∨ mazeAt m x y = 1 := by
  unfold mazeAt
  by_cases hyl : y.toNat < m.length
  · have hrow : m.getD y.toNat [] ∈ m := by
      rw [List.getD_eq_getElem _ _ hyl]; exact List.getElem_mem _
    by_cases hxl : x.toNat < (m.getD y.toNat []).length
    · rw [List.getD_eq_getElem _ _ hxl]
      exact hm _ hrow _ (List.getElem_mem _)
    · have hcell : (m.getD y.toNat []).getD x.toNat 1 = 1 :=
        List.getD_eq_default _ _ (by omega)
      rw [hcell]
      exact Or.inr rfl
  · have hrow : m.getD y.toNat [] = [] := List.getD_eq_default _ _ (by omega)
    rw [hrow]
    exact Or.inr rfl

/-- The Manhattan-distance heuristic of `find_path_astar`. -/
def heuristic (a b : Position) : Nat :=
  (a.x - b.x).natAbs + (a.y - b.y).natAbs

/-- Comparison of heap entries `(f_score, position)`: Python tuple `<` with
`Position.__lt__` as tie-break.  All positions in the heap are distinct, so
this is a strict total order on the live entries and `heappop` returns the
unique minimum. -/
def entryLt (a b : Nat × Position) : Bool :=
  decide (a.1 < b.1) || (decide (a.1 = b.1) && a.2.ltb b.2)

/-- The minimum heap entry (`heapq.heappop` selection). -/
def heapMin : List (Nat × Position) → Option (Nat × Position)
  | [] => none
  | e :: rest => some (rest.foldl (fun acc x => if entryLt x acc then x else acc) e)

theorem heapMin_mem : ∀ {l : List (Nat × Position)} {e : Nat × Position},
    heapMin l = some e → e ∈ l := by
  intro l
  cases l with
  | nil => intro e he; cases he
  | cons a rest =>
      suffices hgen : ∀ (r : List (Nat × Position)) (acc : Nat × Position),
          r.foldl (fun acc x => if entryLt x acc then x else acc) acc ∈ acc :: r by
        intro e he
        simp only [heapMin, Option.some.injEq] at he
        subst he
        exact hgen rest a
      intro r
      induction r with
      | nil => intro acc; simp
      | cons b rest ih =>
          intro acc
          simp only [List.foldl_cons]
          rcases List.mem_cons.mp (ih (if entryLt b acc then b else acc)) with hm | hm
          · rw [hm]
            split <;> simp
          · simp [hm]

theorem heapMin_eq_none : ∀ {l : List (Nat × Position)}, heapMin l = none ↔ l = [] := by
  intro l
  cases l <;> simp [heapMin]

/-- `n < v` where `v` is a `g_score`/`f_score` dictionary entry and `none`
plays `float('inf')`. -/
def ltInf (n : Nat) : Option Nat → Bool
  | none => true
  | some m => decide (n < m)

/-- The mutable state of `find_path_astar`: the heap, `came_from`,
`g_score`, `f_score` (dictionaries as functions, `none` = `inf` — identical
to the source because every read uses `.get(key, inf)` or a key that was
initialised), and `open_set_hash`. -/
structure AStarState where
  open_set : List (Nat × Position)
  came_from : Position → Option Position
  g_score : Position → Option Nat
  f_score : Position → Option Nat
  open_set_hash : List Position

/-- The state after the initialisation block of `find_path_astar`. -/
def astarInit (start goal : Position) : AStarState :=
  { open_set := [(0, start)]
    came_from := fun _ => none
    g_score := fun p => if p = start then some 0 else none
    f_score := fun p => if p = start then some (heuristic start goal) else none
    open_set_hash := [start] }

/-- Body of the relaxation loop of `find_path_astar` for one candidate
neighbour `nb` of the popped node `current`. -/
def astarRelaxNb (maze : Maze) (goal current : Position) (st : AStarState)
    (nb : Position) : AStarState :=
  if ¬ inBounds MAZE_WIDTH MAZE_HEIGHT nb then st
  else if mazeAt maze nb.x nb.y = 1 then st
  else
    match st.g_score current with
    | none => st
    | some gc =>
        if ltInf (gc + 1) (st.g_score nb) then
          { came_from := fun p => if p = nb then some current else st.came_from p
            g_score := fun p => if p = nb then some (gc + 1) else st.g_score p
            f_score := fun p =>
              if p = nb then some (gc + 1 + heuristic nb goal) else st.f_score p
            open_set :=
              if nb ∈ st.open_set_hash then st.open_set
              else (gc + 1 + heuristic nb goal, nb) :: st.open_set
            open_set_hash :=
              if nb ∈ st.open_set_hash then st.open_set_hash
              else nb :: st.open_set_hash }
        else st

/-- The `for dx, dy in ...` relaxation over the four neighbours of the
popped node `current`. -/
def astarVisit (maze : Maze) (goal current : Position) (st0 : AStarState) : AStarState :=
  (neighbors4 current).foldl (astarRelaxNb maze goal current) st0

/-- The `while ... in came_from` reconstruction loop: walks the `came_from`
chain back from the goal, prepending, which matches append-then-reverse.
`none` is only returned on fuel exhaustion (see `astar_terminates`). -/
def reconstructPath (cf : Position → Option Position) :
    Nat → Position → List Position → Option (List Position)
  | 0, _, _ => none
  | n + 1, cur, acc =>
      match cf cur with
      | none => some acc
      | some prev => reconstructPath cf n prev (cur :: acc)

/-- The `while open_set:` loop of `find_path_astar`.  One fuel unit per
iteration; `none` is only returned on fuel exhaustion (see
`astar_terminates`), `some []` is the not-found return. -/
def astarLoop (maze : Maze) (goal : Position) : Nat → AStarState → Option (List Position)
  | 0, _ => none
  | fuel + 1, st =>
      match heapMin st.open_set with
      | none => some []
      | some e =>
          let st1 : AStarState :=
            { st with open_set := st.open_set.erase e
                      open_set_hash := st.open_set_hash.erase e.2 }
          if e.2 = goal then reconstructPath st1.came_from fuel e.2 []
          else astarLoop maze goal fuel (astarVisit maze goal e.2 st1)

theorem neighbors4_mem_adjacent {p q : Position} (h : q ∈ neighbors4 p) :
    p.adjacent q := by
  obtain ⟨x, y⟩ := p
  simp only [neighbors4, List.mem_cons, List.not_mem_nil, or_false] at h
  rcases h with rfl | rfl | rfl | rfl <;> (simp only [Position.adjacent]; omega)

theorem self_not_mem_neighbors4 (p : Position) : p ∉ neighbors4 p := by
  intro h
  have := neighbors4_mem_adjacent h
  simp only [Position.adjacent] at this
  omega

/-- The finite set of positions whose `g_score`/`f_score` entries can ever
be set: the in-bounds grid cells plus the start. -/
def astarDomain (start : Position) : Finset Position :=
  ((Finset.range 25 ×ˢ Finset.range 25).image
    (fun q => (⟨(q.1 : Int), (q.2 : Int)⟩ : Position))) ∪ {start}

theorem mem_astarDomain_of_inBounds {start p : Position}
    (hp : inBounds MAZE_WIDTH MAZE_HEIGHT p) : p ∈ astarDomain start := by
  obtain ⟨hp1, hp2, hp3, hp4⟩ := hp
  unfold MAZE_WIDTH at hp2
  unfold MAZE_HEIGHT at hp4
  obtain ⟨x, y⟩ := p
  simp only at hp1 hp2 hp3 hp4
  refine Finset.mem_union_left _ (Finset.mem_image.mpr ⟨(x.toNat, y.toNat), ?_, ?_⟩)
  · simp only [Finset.mem_product, Finset.mem_range]
    omega
  · simp only [Position.mk.injEq]
    omega

theorem start_mem_astarDomain (start : Position) : start ∈ astarDomain start :=
  Finset.mem_union_right _ (Finset.mem_singleton_self start)

/-- First lexicographic measure component: number of cells with no finite
`g_score` yet. -/
def gInfCount (start : Position) (g : Position → Option Nat) : Nat :=
  ((astarDomain start).filter (fun p => g p = none)).card

/-- Second component: sum of the finite `g_score` values. -/
def gSum (start : Position) (g : Position → Option Nat) : Nat :=
  Finset.sum (astarDomain start) (fun p => (g p).getD 0)

theorem update_eq_fun_update (g : Position → Option Nat) (nb : Position) (v : Option Nat) :
    (fun p => if p = nb then v else g p) = Function.update g nb v := by
  funext p
  rw [Function.update_apply]

theorem gInfCount_update_lt {start : Position} {g : Position → Option Nat}
    {nb : Position} (hnb : nb ∈ astarDomain start) (hold : g nb = none) (v : Nat) :
    gInfCount start (fun p => if p = nb then some v else g p) < gInfCount start g := by
  unfold gInfCount
  apply Finset.card_lt_card
  constructor
  · intro p hp
    rw [Finset.mem_filter] at hp ⊢
    refine ⟨hp.1, ?_⟩
    have hp2 := hp.2
    simp only at hp2
    by_cases hpe : p = nb
    · rw [if_pos hpe] at hp2; cases hp2
    · rw [if_neg hpe] at hp2; exact hp2
  · intro hsub
    have hmem : nb ∈ (astarDomain start).filter (fun p => g p = none) := by
      rw [Finset.mem_filter]; exact ⟨hnb, hold⟩
    have := hsub hmem
    rw [Finset.mem_filter] at this
    have h2 := this.2
    simp at h2

theorem gInfCount_update_eq {start : Position} {g : Position → Option Nat}
    {nb : Position} {old : Nat} (hold : g nb = some old) (v : Nat) :
    gInfCount start (fun p => if p = nb then some v else g p) = gInfCount start g := by
  show ((astarDomain start).filter fun p => (if p = nb then some v else g p) = none).card
    = ((astarDomain start).filter fun p => g p = none).card
  have hf : ((astarDomain start).filter fun p => (if p = nb then some v else g p) = none)
      = ((astarDomain start).filter fun p => g p = none) := by
    ext p
    simp only [Finset.mem_filter]
    constructor
    · rintro ⟨hpd, hpn⟩
      refine ⟨hpd, ?_⟩
      by_cases hpe : p = nb
      · rw [if_pos hpe] at hpn
        cases hpn
      · rwa [if_neg hpe] at hpn
    · rintro ⟨hpd, hpn⟩
      refine ⟨hpd, ?_⟩
      by_cases hpe : p = nb
      · subst hpe
        rw [hold] at hpn
        cases hpn
      · rwa [if_neg hpe]
  rw [hf]

theorem gSum_update_lt {start : Position} {g : Position → Option Nat}
    {nb : Position} {old v : Nat} (hnb : nb ∈ astarDomain start)
    (hold : g nb = some old) (hv : v < old) :
    gSum start (fun p => if p = nb then some v else g p) < gSum start g := by
  unfold gSum
  rw [update_eq_fun_update]
  have h1 : Finset.sum (astarDomain start) (fun p => (Function.update g nb (some v) p).getD 0)
      = Finset.sum ((astarDomain start).erase nb) (fun p => (g p).getD 0) + v := by
    rw [← Finset.add_sum_erase _ _ hnb, Function.update_same]
    have : Finset.sum ((astarDomain start).erase nb)
        (fun p => (Function.update g nb (some v) p).getD 0) =
        Finset.sum ((astarDomain start).erase nb) (fun p => (g p).getD 0) := by
      apply Finset.sum_congr rfl
      intro p hp
      rw [Function.update_apply, if_neg (Finset.ne_of_mem_erase hp)]
    rw [this]
    simp [Nat.add_comm]
  have h2 : Finset.sum (astarDomain start) (fun p => (g p).getD 0)
      = Finset.sum ((astarDomain start).erase nb) (fun p => (g p).getD 0) + old := by
    rw [← Finset.add_sum_erase _ _ hnb, hold]
    simp [Nat.add_comm]
  omega

theorem Position.adjacent_ne {p q : Position} (h : p.adjacent q) : p ≠ q := by
  intro he
  subst he
  simp only [Position.adjacent] at h
  omega

/-- Lexicographic order on the first two components of the A* termination
measure. -/
def lexLt (a b : Nat × Nat) : Prop :=
  a.1 < b.1 ∨ (a.1 = b.1 ∧ a.2 < b.2)

/-- The first two components of the A* termination measure. -/
def gMeasure (start : Position) (s : AStarState) : Nat × Nat :=
  (gInfCount start s.g_score, gSum start s.g_score)

/-- Loop invariant of `find_path_astar`.  `hrelaxed` says a node that has a
finite `g_score` and is not in the open set has had all its passable
neighbours relaxed; `hgoal` says the goal, once discovered, stays in the
open set until popped (and popping it returns). -/
structure AStarInv (maze : Maze) (start goal : Position) (s : AStarState) : Prop where
  hstart : s.g_score start = some 0
  hcf : ∀ p q : Position, s.came_from p = some q →
    stepOpen MAZE_WIDTH MAZE_HEIGHT maze q p ∧
    ∃ gp gq, s.g_score p = some gp ∧ s.g_score q = some gq ∧ gq < gp
  hfin : ∀ p : Position, (s.g_score p).isSome → p = start ∨ (s.came_from p).isSome
  hopeng : ∀ e ∈ s.open_set, (s.g_score e.2).isSome
  hOH : ∀ p : Position, p ∈ s.open_set_hash ↔ p ∈ s.open_set.map Prod.snd
  hnodupO : (s.open_set.map Prod.snd).Nodup
  hnodupH : s.open_set_hash.Nodup
  hrelaxed : ∀ p : Position, (s.g_score p).isSome → p ∉ s.open_set_hash →
    ∀ nb ∈ neighbors4 p, inBounds MAZE_WIDTH MAZE_HEIGHT nb →
      mazeAt maze nb.x nb.y ≠ 1 →
      ∃ gp gnb, s.g_score p = some gp ∧ s.g_score nb = some gnb ∧ gnb ≤ gp + 1
  hgoal : (s.g_score goal).isSome → goal ∈ s.open_set_hash

/-- Invariant of the relaxation fold: all of `AStarInv` except that nodes
equal to the popped `cur` are exempt from `hrelaxed`, plus: `cur` keeps the
fixed `g_score` `gc` and stays outside the open set. -/
structure VisitMid (maze : Maze) (start goal cur : Position) (gc : Nat)
    (s : AStarState) : Prop where
  hstart : s.g_score start = some 0
  hcf : ∀ p q : Position, s.came_from p = some q →
    stepOpen MAZE_WIDTH MAZE_HEIGHT maze q p ∧
    ∃ gp gq, s.g_score p = some gp ∧ s.g_score q = some gq ∧ gq < gp
  hfin : ∀ p : Position, (s.g_score p).isSome → p = start ∨ (s.came_from p).isSome
  hopeng : ∀ e ∈ s.open_set, (s.g_score e.2).isSome
  hOH : ∀ p : Position, p ∈ s.open_set_hash ↔ p ∈ s.open_set.map Prod.snd
  hnodupO : (s.open_set.map Prod.snd).Nodup
  hnodupH : s.open_set_hash.Nodup
  hrelaxed : ∀ p : Position, (s.g_score p).isSome → p ∉ s.open_set_hash → p ≠ cur →
    ∀ nb ∈ neighbors4 p, inBounds MAZE_WIDTH MAZE_HEIGHT nb →
      mazeAt maze nb.x nb.y ≠ 1 →
      ∃ gp gnb, s.g_score p = some gp ∧ s.g_score nb = some gnb ∧ gnb ≤ gp + 1
  hgoal : (s.g_score goal).isSome → goal ∈ s.open_set_hash
  hgcur : s.g_score cur = some gc
  hcurh : cur ∉ s.open_set_hash

theorem astarRelaxNb_spec (maze : Maze) (start goal cur : Position) (gc : Nat)
    (hbin : mazeBinary maze) {s0 : AStarState}
    (hmid : VisitMid maze start goal cur gc s0)
    {nb : Position} (hnb : nb ∈ neighbors4 cur) :
    VisitMid maze start goal cur gc (astarRelaxNb maze goal cur s0 nb) ∧
    (∀ p v, s0.g_score p = some v →
      ∃ v', (astarRelaxNb maze goal cur s0 nb).g_score p = some v' ∧ v' ≤ v) ∧
    (inBounds MAZE_WIDTH MAZE_HEIGHT nb → mazeAt maze nb.x nb.y ≠ 1 →
      ∃ gnb, (astarRelaxNb maze goal cur s0 nb).g_score nb = some gnb ∧ gnb ≤ gc + 1) ∧
    ((gMeasure start (astarRelaxNb maze goal cur s0 nb) = gMeasure start s0 ∧
        (astarRelaxNb maze goal cur s0 nb).open_set = s0.open_set) ∨
      lexLt (gMeasure start (astarRelaxNb maze goal cur s0 nb)) (gMeasure start s0)) := by
  have hadj : cur.adjacent nb := neighbors4_mem_adjacent hnb
  have hnbcur : nb ≠ cur := Ne.symm (Position.adjacent_ne hadj)
  unfold astarRelaxNb
  by_cases hb : inBounds MAZE_WIDTH MAZE_HEIGHT nb
  · rw [if_neg (by intro hc; exact hc hb)]
    by_cases hwall : mazeAt maze nb.x nb.y = 1
    · rw [if_pos hwall]
      exact ⟨hmid, fun p v hv => ⟨v, hv, le_rfl⟩, fun _ hq => absurd hwall hq,
        Or.inl ⟨rfl, rfl⟩⟩
    · rw [if_neg hwall]
      rw [hmid.hgcur]
      dsimp only
      have hopen0 : mazeAt maze nb.x nb.y = 0 := by
        rcases mazeBinary_at hbin nb.x nb.y with h0 | h1
        · exact h0
        · exact absurd h1 hwall
      have hstep : stepOpen MAZE_WIDTH MAZE_HEIGHT maze cur nb := ⟨hadj, hb, hopen0⟩
      by_cases hlt : ltInf (gc + 1) (s0.g_score nb) = true
      · rw [if_pos hlt]
        have hnbstart : nb ≠ start := by
          intro heq
          subst heq
          rw [hmid.hstart] at hlt
          simp [ltInf] at hlt
        constructor
        · -- VisitMid for the updated state
          refine ⟨?_, ?_, ?_, ?_, ?_, ?_, ?_, ?_, ?_, ?_, ?_⟩
          · -- hstart
            dsimp only
            rw [if_neg (fun hc => hnbstart hc.symm)]
            exact hmid.hstart
          · -- hcf
            intro p q hcfpq
            dsimp only at hcfpq ⊢
            by_cases hpe : p = nb
            · subst hpe
              rw [if_pos rfl] at hcfpq
              cases hcfpq
              refine ⟨hstep, gc + 1, gc, by rw [if_pos rfl], ?_, by omega⟩
              rw [if_neg (fun hc => hnbcur hc.symm)]
              exact hmid.hgcur
            · rw [if_neg hpe] at hcfpq
              obtain ⟨hs, gp, gq, hgp, hgq, hlt2⟩ := hmid.hcf p q hcfpq
              refine ⟨hs, gp, ?_⟩
              by_cases hqe : q = nb
              · subst hqe
                rw [hgq] at hlt
                simp only [ltInf, decide_eq_true_eq] at hlt
                exact ⟨gc + 1, by rw [if_neg hpe]; exact hgp, by rw [if_pos rfl], by omega⟩
              · exact ⟨gq, by rw [if_neg hpe]; exact hgp, by rw [if_neg hqe]; exact hgq,
                  hlt2⟩
          · -- hfin
            intro p hp
            dsimp only at hp ⊢
            by_cases hpe : p = nb
            · subst hpe
              right
              rw [if_pos rfl]
              rfl
            · rw [if_neg hpe] at hp ⊢
              rcases hmid.hfin p hp with h | h
              · exact Or.inl h
              · exact Or.inr h
          · -- hopeng
            intro e he
            dsimp only at he ⊢
            by_cases hee : e.2 = nb
            · rw [if_pos hee]
              rfl
            · rw [if_neg hee]
              split at he
              · exact hmid.hopeng e he
              · rcases List.mem_cons.mp he with rfl | he'
                · exact absurd rfl hee
                · exact hmid.hopeng e he'
          · -- hOH
            intro p
            dsimp only
            split
            · next hin => exact hmid.hOH p
            · next hnin =>
                simp only [List.map_cons, List.mem_cons]
                constructor
                · intro hp
                  rcases hp with rfl | hp'
                  · exact Or.inl rfl
                  · exact Or.inr ((hmid.hOH p).mp hp')
                · intro hp
                  rcases hp with rfl | hp'
                  · exact Or.inl rfl
                  · exact Or.inr ((hmid.hOH p).mpr hp')
          · -- hnodupO
            dsimp only
            split
            · exact hmid.hnodupO
            · next hnin =>
                simp only [List.map_cons]
                exact List.Nodup.cons (fun hc => hnin ((hmid.hOH nb).mpr hc)) hmid.hnodupO
          · -- hnodupH
            dsimp only
            split
            · exact hmid.hnodupH
            · next hnin => exact List.Nodup.cons hnin hmid.hnodupH
          · -- hrelaxed
            intro p hp hph hpc nb2 hnb2 hb2 hw2
            dsimp only at hp hph ⊢
            have hpnb : p ≠ nb := by
              intro heq
              subst heq
              apply hph
              split
              · next hin => exact hin
              · exact List.mem_cons_self _ _
            have hph0 : p ∉ s0.open_set_hash := by
              intro hc
              apply hph
              split
              · exact hc
              · exact List.mem_cons_of_mem _ hc
            rw [if_neg hpnb] at hp
            obtain ⟨gp, gnb2, hgp, hgnb2, hle⟩ :=
              hmid.hrelaxed p hp hph0 hpc nb2 hnb2 hb2 hw2
            refine ⟨gp, ?_⟩
            by_cases hnb2e : nb2 = nb
            · subst hnb2e
              rw [hgnb2] at hlt
              simp only [ltInf, decide_eq_true_eq] at hlt
              exact ⟨gc + 1, by rw [if_neg hpnb]; exact hgp, by rw [if_pos rfl], by omega⟩
            · exact ⟨gnb2, by rw [if_neg hpnb]; exact hgp, by rw [if_neg hnb2e]; exact hgnb2,
                hle⟩
          · -- hgoal
            intro hg
            dsimp only at hg ⊢
            by_cases hge : goal = nb
            · subst hge
              split
              · next hin => exact hin
              · exact List.mem_cons_self _ _
            · rw [if_neg hge] at hg
              have := hmid.hgoal hg
              split
              · exact this
              · exact List.mem_cons_of_mem _ this
          · -- hgcur
            dsimp only
            rw [if_neg (fun hc => hnbcur hc.symm)]
            exact hmid.hgcur
          · -- hcurh
            dsimp only
            split
            · exact hmid.hcurh
            · intro hc
              rcases List.mem_cons.mp hc with heq | hc'
              · exact hnbcur heq.symm
              · exact hmid.hcurh hc'
        constructor
        · -- pointwise decrease
          intro p v hv
          dsimp only
          by_cases hpe : p = nb
          · subst hpe
            rw [hv] at hlt
            simp only [ltInf, decide_eq_true_eq] at hlt
            exact ⟨gc + 1, by rw [if_pos rfl], by omega⟩
          · exact ⟨v, by rw [if_neg hpe]; exact hv, le_rfl⟩
        constructor
        · -- nb is relaxed now
          intro _ _
          dsimp only
          exact ⟨gc + 1, by rw [if_pos rfl], le_rfl⟩
        · -- measure strictly decreases lexicographically
          right
          unfold gMeasure lexLt
          dsimp only
          cases hnbold : s0.g_score nb with
          | none =>
              left
              exact gInfCount_update_lt (mem_astarDomain_of_inBounds hb) hnbold (gc + 1)
          | some old =>
              right
              rw [hnbold] at hlt
              simp only [ltInf, decide_eq_true_eq] at hlt
              exact ⟨gInfCount_update_eq hnbold (gc + 1),
                gSum_update_lt (mem_astarDomain_of_inBounds hb) hnbold hlt⟩
      · rw [if_neg hlt]
        refine ⟨hmid, fun p v hv => ⟨v, hv, le_rfl⟩, fun _ _ => ?_, Or.inl ⟨rfl, rfl⟩⟩
        cases hnbold : s0.g_score nb with
        | none => rw [hnbold] at hlt; simp [ltInf] at hlt
        | some old =>
            rw [hnbold] at hlt
            simp only [ltInf, decide_eq_true_eq] at hlt
            exact ⟨old, rfl, by omega⟩
  · rw [if_pos hb]
    exact ⟨hmid, fun p v hv => ⟨v, hv, le_rfl⟩, fun hq _ => absurd hq hb,
      Or.inl ⟨rfl, rfl⟩⟩

theorem lexLt_trans {a b c : Nat × Nat} (h1 : lexLt a b) (h2 : lexLt b c) : lexLt a c := by
  unfold lexLt at *
  omega

theorem astarVisit_fold_spec (maze : Maze) (start goal cur : Position) (gc : Nat)
    (hbin : mazeBinary maze) :
    ∀ (l : List Position), (∀ nb ∈ l, nb ∈ neighbors4 cur) →
    ∀ s0 : AStarState, VisitMid maze start goal cur gc s0 →
    VisitMid maze start goal cur gc (l.foldl (astarRelaxNb maze goal cur) s0) ∧
    (∀ p v, s0.g_score p = some v →
      ∃ v', (l.foldl (astarRelaxNb maze goal cur) s0).g_score p = some v' ∧ v' ≤ v) ∧
    (∀ nb ∈ l, inBounds MAZE_WIDTH MAZE_HEIGHT nb → mazeAt maze nb.x nb.y ≠ 1 →
      ∃ gnb, (l.foldl (astarRelaxNb maze goal cur) s0).g_score nb = some gnb ∧
        gnb ≤ gc + 1) ∧
    ((gMeasure start (l.foldl (astarRelaxNb maze goal cur) s0) = gMeasure start s0 ∧
        (l.foldl (astarRelaxNb maze goal cur) s0).open_set = s0.open_set) ∨
      lexLt (gMeasure start (l.foldl (astarRelaxNb maze goal cur) s0))
        (gMeasure start s0)) := by
  intro l
  induction l with
  | nil =>
      intro _ s0 hmid
      exact ⟨hmid, fun p v hv => ⟨v, hv, le_rfl⟩, fun nb hnb => absurd hnb
        (List.not_mem_nil nb), Or.inl ⟨rfl, rfl⟩⟩
  | cons nb l ih =>
      intro hsub s0 hmid
      have hnb : nb ∈ neighbors4 cur := hsub nb (List.mem_cons_self _ _)
      obtain ⟨hmid1, hdec1, hrel1, hmeas1⟩ := astarRelaxNb_spec maze start goal cur gc
        hbin hmid hnb
      obtain ⟨hmidF, hdecF, hrelF, hmeasF⟩ := ih
        (fun q hq => hsub q (List.mem_cons_of_mem _ hq)) _ hmid1
      simp only [List.foldl_cons]
      refine ⟨hmidF, ?_, ?_, ?_⟩
      · intro p v hv
        obtain ⟨v1, hv1, hle1⟩ := hdec1 p v hv
        obtain ⟨v2, hv2, hle2⟩ := hdecF p v1 hv1
        exact ⟨v2, hv2, le_trans hle2 hle1⟩
      · intro q hq hbq hwq
        rcases List.mem_cons.mp hq with rfl | hq'
        · obtain ⟨g1, hg1, hle1⟩ := hrel1 hbq hwq
          obtain ⟨g2, hg2, hle2⟩ := hdecF q g1 hg1
          exact ⟨g2, hg2, le_trans hle2 hle1⟩
        · exact hrelF q hq' hbq hwq
      · rcases hmeas1 with ⟨hme1, hoe1⟩ | hml1
        · rcases hmeasF with ⟨hme2, hoe2⟩ | hml2
          · exact Or.inl ⟨hme2.trans hme1, hoe2.trans hoe1⟩
          · right
            rw [hme1] at hml2
            exact hml2
        · rcases hmeasF with ⟨hme2, _⟩ | hml2
          · right
            rw [← hme2] at hml1
            exact hml1
          · exact Or.inr (lexLt_trans hml2 hml1)

theorem open_erase_spec {op : List (Nat × Position)} {hash : List Position}
    (hOH : ∀ p : Position, p ∈ hash ↔ p ∈ op.map Prod.snd)
    (hndO : (op.map Prod.snd).Nodup) (hndH : hash.Nodup)
    {e : Nat × Position} (he : e ∈ op) :
    (∀ p : Position, p ∈ hash.erase e.2 ↔ p ∈ (op.erase e).map Prod.snd) ∧
    ((op.erase e).map Prod.snd).Nodup ∧ (hash.erase e.2).Nodup ∧
    e.2 ∉ hash.erase e.2 := by
  have hndOp : op.Nodup := hndO.of_map
  have hinj := List.inj_on_of_nodup_map hndO
  have henot : e ∉ op.erase e := by
    intro hc
    exact absurd rfl ((hndOp.mem_erase_iff.mp hc).1)
  refine ⟨?_, ?_, hndH.erase _, ?_⟩
  · intro p
    constructor
    · intro hp
      obtain ⟨hpne, hpmem⟩ := hndH.mem_erase_iff.mp hp
      obtain ⟨en, hen, hensnd⟩ := List.mem_map.mp ((hOH p).mp hpmem)
      have henne : en ≠ e := by
        intro hc
        subst hc
        exact hpne hensnd.symm
      exact List.mem_map.mpr ⟨en, (List.mem_erase_of_ne henne).mpr hen, hensnd⟩
    · intro hp
      obtain ⟨en, hen, hensnd⟩ := List.mem_map.mp hp
      have henop : en ∈ op := List.mem_of_mem_erase hen
      have hpne : p ≠ e.2 := by
        intro hc
        have : en = e := hinj henop he (by rw [hensnd, hc])
        subst this
        exact henot hen
      exact hndH.mem_erase_iff.mpr ⟨hpne, (hOH p).mpr (hensnd ▸ List.mem_map_of_mem _ henop)⟩
  · exact ((op.erase_sublist e).map Prod.snd).nodup hndO
  · intro hc
    exact absurd rfl ((hndH.mem_erase_iff.mp hc).1)

theorem astarStep_spec (maze : Maze) (start goal : Position) (hbin : mazeBinary maze)
    {s : AStarState} (hInv : AStarInv maze start goal s) {e : Nat × Position}
    (hpop : heapMin s.open_set = some e) (hng : e.2 ≠ goal) :
    AStarInv maze start goal (astarVisit maze goal e.2
      { s with open_set := s.open_set.erase e,
               open_set_hash := s.open_set_hash.erase e.2 }) ∧
    (lexLt (gMeasure start (astarVisit maze goal e.2
        { s with open_set := s.open_set.erase e,
                 open_set_hash := s.open_set_hash.erase e.2 })) (gMeasure start s) ∨
      (gMeasure start (astarVisit maze goal e.2
          { s with open_set := s.open_set.erase e,
                   open_set_hash := s.open_set_hash.erase e.2 }) = gMeasure start s ∧
        (astarVisit maze goal e.2
          { s with open_set := s.open_set.erase e,
                   open_set_hash := s.open_set_hash.erase e.2 }).open_set.length <
          s.open_set.length)) := by
  have he : e ∈ s.open_set := heapMin_mem hpop
  obtain ⟨hOH1, hndO1, hndH1, hcur1⟩ :=
    open_erase_spec hInv.hOH hInv.hnodupO hInv.hnodupH he
  have hgsome := hInv.hopeng e he
  obtain ⟨gc, hgc⟩ := Option.isSome_iff_exists.mp hgsome
  have hmid1 : VisitMid maze start goal e.2 gc
      { s with open_set := s.open_set.erase e,
               open_set_hash := s.open_set_hash.erase e.2 } := by
    refine ⟨hInv.hstart, hInv.hcf, hInv.hfin, ?_, hOH1, hndO1, hndH1, ?_, ?_, hgc, hcur1⟩
    · intro en hen
      exact hInv.hopeng en (List.mem_of_mem_erase hen)
    · intro p hp hph hpne nb hnb hbnb hwnb
      have hph0 : p ∉ s.open_set_hash := by
        intro hc
        exact hph (hInv.hnodupH.mem_erase_iff.mpr ⟨hpne, hc⟩)
      exact hInv.hrelaxed p hp hph0 nb hnb hbnb hwnb
    · intro hg
      exact (List.mem_erase_of_ne (Ne.symm hng)).mpr (hInv.hgoal hg)
  obtain ⟨hmidF, hdecF, hrelF, hmeasF⟩ :=
    astarVisit_fold_spec maze start goal e.2 gc hbin (neighbors4 e.2) (fun _ h => h) _ hmid1
  constructor
  · refine ⟨hmidF.hstart, hmidF.hcf, hmidF.hfin, hmidF.hopeng, hmidF.hOH, hmidF.hnodupO,
      hmidF.hnodupH, ?_, hmidF.hgoal⟩
    intro p hp hph nb hnb hbnb hwnb
    by_cases hpe : p = e.2
    · subst hpe
      obtain ⟨gnb, hgnb, hlenb⟩ := hrelF nb hnb hbnb hwnb
      exact ⟨gc, gnb, hmidF.hgcur, hgnb, hlenb⟩
    · exact hmidF.hrelaxed p hp hph hpe nb hnb hbnb hwnb
  · unfold astarVisit
    have hms : gMeasure start
        { s with open_set := s.open_set.erase e,
                 open_set_hash := s.open_set_hash.erase e.2 } = gMeasure start s := rfl
    rcases hmeasF with ⟨hme, hoe⟩ | hml
    · right
      refine ⟨hme.trans hms, ?_⟩
      rw [hoe]
      have := List.length_erase_of_mem he
      have hpos : 0 < s.open_set.length := List.length_pos.mpr (by
        intro hc
        rw [hc] at he
        cases he)
      simp only at this ⊢
      omega
    · left
      rw [hms] at hml
      exact hml

theorem chain_append_single {R : Position → Position → Prop} :
    ∀ {l : List Position} {s b c : Position}, List.Chain R s l → l.getLast? = some b →
      R b c → List.Chain R s (l ++ [c]) := by
  intro l
  induction l with
  | nil => intro s b c _ hl; cases hl
  | cons p l ih =>
      intro s b c hch hl hbc
      rcases List.chain_cons.mp hch with ⟨h1, h2⟩
      rcases l with _ | ⟨q, l'⟩
      · simp only [List.getLast?_singleton, Option.some.injEq] at hl
        subst hl
        exact List.chain_cons.mpr ⟨h1, List.chain_cons.mpr ⟨hbc, List.Chain.nil⟩⟩
      · have hl' : (q :: l').getLast? = some b := by
          rw [← hl]
          simp [List.getLast?_cons_cons]
        exact List.chain_cons.mpr ⟨h1, ih h2 hl' hbc⟩

theorem reconstructPath_spec (maze : Maze) (start : Position)
    (cf : Position → Option Position) (g : Position → Option Nat)
    (hstart : g start = some 0)
    (hcf : ∀ p q : Position, cf p = some q → stepOpen MAZE_WIDTH MAZE_HEIGHT maze q p ∧
      ∃ gp gq, g p = some gp ∧ g q = some gq ∧ gq < gp)
    (hfin : ∀ p : Position, (g p).isSome → p = start ∨ (cf p).isSome) :
    ∀ (n : Nat) (cur : Position) (acc res : List Position),
      (g cur).isSome → reconstructPath cf n cur acc = some res →
      ∃ pre, res = pre ++ acc ∧ start ∉ pre ∧
        ((pre = [] ∧ cur = start) ∨
          (pre ≠ [] ∧ List.Chain (stepOpen MAZE_WIDTH MAZE_HEIGHT maze) start pre ∧
            pre.getLast? = some cur)) := by
  intro n
  induction n with
  | zero => intro cur acc res _ hres; cases hres
  | succ n ih =>
      intro cur acc res hg hres
      rw [reconstructPath] at hres
      cases hc : cf cur with
      | none =>
          rw [hc] at hres
          cases hres
          refine ⟨[], by simp, by simp, Or.inl ⟨rfl, ?_⟩⟩
          rcases hfin cur hg with h | h
          · exact h
          · rw [hc] at h; cases h
      | some prev =>
          rw [hc] at hres
          obtain ⟨hs, gp, gq, hgp, hgq, hlt⟩ := hcf cur prev hc
          have hcurstart : cur ≠ start := by
            intro heq
            subst heq
            rw [hstart] at hgp
            cases hgp
            omega
          obtain ⟨pre', hres', hstart', hcase⟩ := ih prev (cur :: acc) res
            (by rw [hgq]; rfl) hres
          refine ⟨pre' ++ [cur], by simpa using hres', ?_, Or.inr ⟨by simp, ?_, ?_⟩⟩
          · intro hmem
            rcases List.mem_append.mp hmem with hmem' | hmem'
            · exact hstart' hmem'
            · simp only [List.mem_singleton] at hmem'
              exact hcurstart hmem'.symm
          · rcases hcase with ⟨hpe, hpstart⟩ | ⟨hpne, hchain, hlast⟩
            · subst hpe
              subst hpstart
              exact List.chain_cons.mpr ⟨hs, List.Chain.nil⟩
            · exact chain_append_single hchain hlast hs
          · exact List.getLast?_concat _

theorem reconstruct_term (cf : Position → Option Position) (g : Position → Option Nat)
    (hcf : ∀ p q : Position, cf p = some q →
      ∃ gp gq, g p = some gp ∧ g q = some gq ∧ gq < gp) :
    ∀ (gv : Nat) (cur : Position), g cur = some gv → ∀ acc,
      ∃ n res, reconstructPath cf n cur acc = some res := by
  intro gv
  induction gv using Nat.strong_induction_on with
  | _ gv ih =>
      intro cur hgcur acc
      cases hc : cf cur with
      | none => exact ⟨1, acc, by rw [reconstructPath, hc]⟩
      | some prev =>
          obtain ⟨gp, gq, hgp, hgq, hlt⟩ := hcf cur prev hc
          rw [hgcur] at hgp
          cases hgp
          obtain ⟨n, res, hres⟩ := ih gq hlt prev hgq (cur :: acc)
          exact ⟨n + 1, res, by rw [reconstructPath, hc]; exact hres⟩

theorem astarInit_inv (maze : Maze) (start goal : Position) :
    AStarInv maze start goal (astarInit start goal) := by
  refine ⟨?_, ?_, ?_, ?_, ?_, ?_, ?_, ?_, ?_⟩
  · simp [astarInit]
  · intro p q hpq
    simp [astarInit] at hpq
  · intro p hp
    simp only [astarInit] at hp
    by_cases hpe : p = start
    · exact Or.inl hpe
    · rw [if_neg hpe] at hp
      cases hp
  · intro e he
    simp only [astarInit, List.mem_singleton] at he
    subst he
    simp [astarInit]
  · intro p
    simp [astarInit]
  · simp [astarInit]
  · simp [astarInit]
  · intro p hp hph nb _ _ _
    simp only [astarInit] at hp hph
    by_cases hpe : p = start
    · refine absurd ?_ hph
      rw [hpe]
      exact List.mem_singleton_self _
    · rw [if_neg hpe] at hp
      cases hp
  · intro hg
    simp only [astarInit] at hg ⊢
    by_cases hge : goal = start
    · rw [hge]
      exact List.mem_singleton_self _
    · rw [if_neg hge] at hg
      cases hg

/-- If every cell with a finite `g_score` is fully relaxed (open set empty),
then every cell reachable from the start has a finite `g_score`. -/
theorem closure_of_relaxed (maze : Maze) (start goal : Position) (hbin : mazeBinary maze)
    {s : AStarState} (hInv : AStarInv maze start goal s)
    (hempty : s.open_set = []) {p : Position}
    (hreach : Reaches MAZE_WIDTH MAZE_HEIGHT maze start p) : (s.g_score p).isSome := by
  have hhash : ∀ q : Position, q ∉ s.open_set_hash := by
    intro q hq
    have := (hInv.hOH q).mp hq
    rw [hempty] at this
    cases this
  induction hreach with
  | refl => rw [hInv.hstart]; rfl
  | @tail b c hab hbc ih =>
      obtain ⟨gp, gnb, _, hgnb, _⟩ := hInv.hrelaxed b ih (hhash b) c
        (neighbors4_adjacent hbc.1) hbc.2.1 (by rw [hbc.2.2]; omega)
      rw [hgnb]
      rfl

theorem astarLoop_spec (maze : Maze) (start goal : Position) (hbin : mazeBinary maze) :
    ∀ (fuel : Nat) (s : AStarState), AStarInv maze start goal s →
    ∀ res, astarLoop maze goal fuel s = some res →
      start ∉ res ∧
      List.Chain (stepOpen MAZE_WIDTH MAZE_HEIGHT maze) start res ∧
      (res ≠ [] → res.getLast? = some goal) ∧
      (res = [] → start = goal ∨ ¬ Reaches MAZE_WIDTH MAZE_HEIGHT maze start goal) := by
  intro fuel
  induction fuel with
  | zero => intro s _ res hres; cases hres
  | succ fuel ih =>
      intro s hInv res hres
      rw [astarLoop] at hres
      cases hpop : heapMin s.open_set with
      | none =>
          rw [hpop] at hres
          cases hres
          refine ⟨by simp, List.Chain.nil, by simp, fun _ => ?_⟩
          by_cases hsg : start = goal
          · exact Or.inl hsg
          · right
            intro hreach
            have hempty : s.open_set = [] := heapMin_eq_none.mp hpop
            have hg := closure_of_relaxed maze start goal hbin hInv hempty hreach
            have := (hInv.hOH goal).mp (hInv.hgoal hg)
            rw [hempty] at this
            cases this
      | some e =>
          rw [hpop] at hres
          dsimp only at hres
          by_cases hge : e.2 = goal
          · rw [if_pos hge] at hres
            have hgs : (s.g_score e.2).isSome := hInv.hopeng e (heapMin_mem hpop)
            obtain ⟨pre, hrespre, hprestart, hcase⟩ := reconstructPath_spec maze start
              s.came_from s.g_score hInv.hstart hInv.hcf hInv.hfin fuel e.2 [] res hgs hres
            rw [List.append_nil] at hrespre
            subst hrespre
            rcases hcase with ⟨hpe, hpstart⟩ | ⟨hpne, hchain, hlast⟩
            · subst hpe
              exact ⟨by simp, List.Chain.nil, by simp,
                fun _ => Or.inl (hpstart.symm.trans hge)⟩
            · refine ⟨hprestart, hchain, fun _ => by rw [hlast, hge], fun hc => ?_⟩
              exact absurd hc hpne
          · rw [if_neg hge] at hres
            obtain ⟨hInv', _⟩ := astarStep_spec maze start goal hbin hInv hpop hge
            exact ih _ hInv' res hres

theorem astar_term_aux (maze : Maze) (start goal : Position) (hbin : mazeBinary maze) :
    ∀ (a b c : Nat) (s : AStarState),
      gInfCount start s.g_score = a → gSum start s.g_score = b →
      s.open_set.length = c → AStarInv maze start goal s →
      ∃ fuel res, astarLoop maze goal fuel s = some res := by
  intro a
  induction a using Nat.strong_induction_on with
  | _ a iha =>
  intro b
  induction b using Nat.strong_induction_on with
  | _ b ihb =>
  intro c
  induction c using Nat.strong_induction_on with
  | _ c ihc =>
  intro s ha hb hc hInv
  cases hpop : heapMin s.open_set with
  | none => exact ⟨1, [], by rw [astarLoop, hpop]⟩
  | some e =>
      by_cases hge : e.2 = goal
      · have hgs : (s.g_score e.2).isSome := hInv.hopeng e (heapMin_mem hpop)
        obtain ⟨gv, hgv⟩ := Option.isSome_iff_exists.mp hgs
        obtain ⟨n, res, hrec⟩ := reconstruct_term s.came_from s.g_score
          (fun p q hpq => (hInv.hcf p q hpq).2) gv e.2 hgv []
        refine ⟨n + 1, res, ?_⟩
        rw [astarLoop, hpop]
        dsimp only
        rw [if_pos hge]
        exact hrec
      · obtain ⟨hInv', hmeas⟩ := astarStep_spec maze start goal hbin hInv hpop hge
        rcases hmeas with hml | ⟨hme, hlen⟩
        · unfold lexLt gMeasure at hml
          dsimp only at hml
          rcases hml with h1 | ⟨h1, h2⟩
          · rw [ha] at h1
            obtain ⟨fuel, res, hres⟩ := iha _ h1 _ _ _ rfl rfl rfl hInv'
            refine ⟨fuel + 1, res, ?_⟩
            rw [astarLoop, hpop]
            dsimp only
            rw [if_neg hge]
            exact hres
          · rw [ha] at h1
            rw [hb] at h2
            obtain ⟨fuel, res, hres⟩ := ihb _ h2 _ _ h1 rfl rfl hInv'
            refine ⟨fuel + 1, res, ?_⟩
            rw [astarLoop, hpop]
            dsimp only
            rw [if_neg hge]
            exact hres
        · rw [hc] at hlen
          unfold gMeasure at hme
          have hme1 := congrArg Prod.fst hme
          have hme2 := congrArg Prod.snd hme
          dsimp only at hme1 hme2
          rw [ha] at hme1
          rw [hb] at hme2
          obtain ⟨fuel, res, hres⟩ := ihc _ hlen _ hme1 hme2 rfl hInv'
          refine ⟨fuel + 1, res, ?_⟩
          rw [astarLoop, hpop]
          dsimp only
          rw [if_neg hge]
          exact hres

/-- `find_path_astar` terminates: with enough fuel the loop returns a result
(the real `while open_set:` loop always exits). -/
theorem astar_terminates (maze : Maze) (start goal : Position) (hbin : mazeBinary maze) :
    ∃ fuel res, astarLoop maze goal fuel (astarInit start goal) = some res :=
  astar_term_aux maze start goal hbin _ _ _ _ rfl rfl rfl (astarInit_inv maze start goal)

/-- An 8-row pattern of open (0) and wall (1) cells; outside it the
counterexample grid is all wall. -/
def cexPat : List (List Nat) :=
  [[1, 0, 0, 0],
   [0, 0, 0, 0],
   [1, 0, 0, 1],
   [0, 1, 0, 1],
   [1, 0, 0, 0],
   [0, 0, 0, 1],
   [0, 0, 0, 0],
   [0, 0, 0, 0]]

/-- The pattern embedded into the program's 25 x 25 grid. -/
def cexMaze : Maze :=
  (List.range 25).map fun y => (List.range 25).map fun x => (cexPat.getD y []).getD x 1

set_option maxHeartbeats 3200000 in
set_option maxRecDepth 40000 in
/-- C1 (counterexample): on `cexMaze` the shortest open walk from (2,7) to
(1,0) has exactly 8 steps (one of 8 steps exists, none of 7 does), yet
`find_path_astar` returns a path of length 10.  The algorithm never
re-pushes a node whose `g_score` improves while it already sits in
`open_set_hash`, so that node is popped with a stale priority and its
improved cost is never propagated — the returned path is not shortest. -/
theorem astar_suboptimal_counterexample :
    mazeBinary cexMaze ∧
    inBounds MAZE_WIDTH MAZE_HEIGHT ⟨2, 7⟩ ∧ mazeAt cexMaze 2 7 = 0 ∧
    inBounds MAZE_WIDTH MAZE_HEIGHT ⟨1, 0⟩ ∧ mazeAt cexMaze 1 0 = 0 ∧
    (⟨2, 7⟩ : Position) ≠ ⟨1, 0⟩ ∧
    reachInSteps MAZE_WIDTH MAZE_HEIGHT cexMaze 8 ⟨2, 7⟩ ⟨1, 0⟩ = true ∧
    reachInSteps MAZE_WIDTH MAZE_HEIGHT cexMaze 7 ⟨2, 7⟩ ⟨1, 0⟩ = false ∧
    (astarLoop cexMaze ⟨1, 0⟩ 100 (astarInit ⟨2, 7⟩ ⟨1, 0⟩)).map List.length = some 10 :=
  ⟨by decide, by decide, by decide, by decide, by decide, by decide, by decide,
   by decide, by decide⟩

/-- C1 (amended): for every binary maze and reachable `goal ≠ start`,
`find_path_astar` terminates and returns a non-empty walk of orthogonal unit
steps through open in-bounds cells, ordered start-to-goal, excluding the
start cell, ending at the goal — and its length is at least the shortest-walk
(BFS) distance: every `n` with no `n`-step walk is below the path length.
Equality with the BFS distance can fail (see
`astar_suboptimal_counterexample`). -/
theorem astar_path_valid_and_at_least_bfs (maze : Maze) (start goal : Position)
    (hbin : mazeBinary maze)
    (hreach : Reaches MAZE_WIDTH MAZE_HEIGHT maze start goal)
    (hne : start ≠ goal) :
    (∃ fuel res, astarLoop maze goal fuel (astarInit start goal) = some res) ∧
    ∀ fuel res, astarLoop maze goal fuel (astarInit start goal) = some res →
      res ≠ [] ∧
      start ∉ res ∧
      List.Chain (stepOpen MAZE_WIDTH MAZE_HEIGHT maze) start res ∧
      res.getLast? = some goal ∧
      ∀ n, reachInSteps MAZE_WIDTH MAZE_HEIGHT maze n start goal = false →
        n < res.length := by
  refine ⟨astar_terminates maze start goal hbin, ?_⟩
  intro fuel res hres
  obtain ⟨hstart, hchain, hlast, hempty⟩ :=
    astarLoop_spec maze start goal hbin fuel _ (astarInit_inv maze start goal) res hres
  have hrne : res ≠ [] := by
    intro h
    rcases hempty h with h' | h'
    · exact hne h'
    · exact h' hreach
  refine ⟨hrne, hstart, hchain, hlast hrne, ?_⟩
  intro n hn
  by_contra hlen
  push_neg at hlen
  have hglast : res.getLast hrne = goal := by
    have h1 := List.getLast?_eq_getLast res hrne
    have h2 := hlast hrne
    rw [h1] at h2
    exact Option.some.injEq _ _ ▸ h2
  have hstep := reachInSteps_of_chain hchain hrne hglast
  have hmono := reachInSteps_mono hlen hstep
  rw [hn] at hmono
  cases hmono

set_option maxHeartbeats 3200000 in
set_option maxRecDepth 40000 in
/-- Witness for `astar_path_valid_and_at_least_bfs` on the concrete
counterexample grid, start (2,7), goal (1,0). -/
theorem astar_path_valid_and_at_least_bfs_witness :
    mazeBinary cexMaze ∧
    Reaches MAZE_WIDTH MAZE_HEIGHT cexMaze ⟨2, 7⟩ ⟨1, 0⟩ ∧
    (⟨2, 7⟩ : Position) ≠ ⟨1, 0⟩ ∧
    ((∃ fuel res, astarLoop cexMaze ⟨1, 0⟩ fuel (astarInit ⟨2, 7⟩ ⟨1, 0⟩) = some res) ∧
      ∀ fuel res, astarLoop cexMaze ⟨1, 0⟩ fuel (astarInit ⟨2, 7⟩ ⟨1, 0⟩) = some res →
        res ≠ [] ∧
        (⟨2, 7⟩ : Position) ∉ res ∧
        List.Chain (stepOpen MAZE_WIDTH MAZE_HEIGHT cexMaze) ⟨2, 7⟩ res ∧
        res.getLast? = some ⟨1, 0⟩ ∧
        ∀ n, reachInSteps MAZE_WIDTH MAZE_HEIGHT cexMaze n ⟨2, 7⟩ ⟨1, 0⟩ = false →
          n < res.length) :=
  ⟨by decide,
   reaches_of_reachInSteps
     (show reachInSteps MAZE_WIDTH MAZE_HEIGHT cexMaze 8 ⟨2, 7⟩ ⟨1, 0⟩ = true by decide),
   by decide,
   astar_path_valid_and_at_least_bfs cexMaze ⟨2, 7⟩ ⟨1, 0⟩ (by decide)
     (reaches_of_reachInSteps
       (show reachInSteps MAZE_WIDTH MAZE_HEIGHT cexMaze 8 ⟨2, 7⟩ ⟨1, 0⟩ = true by decide))
     (by decide)⟩

/-- `AIType` enum. -/
inductive AIType where
  | PATROL
  | DETECTOR
  | ENHANCED
deriving DecidableEq, Repr

/-- The `AI` class.  `vision_radius` is `Option Rat` with `none` for
`float('inf')` (the detector).  `is_chasing` / `last_known_player_pos` are
only ever set on patrol AIs and `last_known_pos` only on enhanced AIs; the
constructor leaves the others at the neutral defaults below, which the
source never reads for the other types. -/
structure AI where
  pos : Position
  type : AIType
  last_move_time : Rat
  patrol_path : List Position
  path_index : Nat
  chase_path : List Position
  base_move_delay : Rat
  vision_radius : Option Rat
  is_chasing : Bool
  last_known_player_pos : Option Position
  last_known_pos : Option Position
  current_move_delay : Rat

/-- `AI.__init__(x, y, ai_type, game_instance)`: per-type move delay and
vision radius, `current_move_delay = base_move_delay`. -/
def AI.init (x y : Int) (t : AIType) : AI :=
  { pos := ⟨x, y⟩
    type := t
    last_move_time := 0
    patrol_path := []
    path_index := 0
    chase_path := []
    base_move_delay :=
      match t with
      | AIType.PATROL => 3 / 10
      | AIType.DETECTOR => 1 / 2
      | AIType.ENHANCED => 1 / 4
    vision_radius :=
      match t with
      | AIType.PATROL => some 7
      | AIType.DETECTOR => none
      | AIType.ENHANCED => some 0
    is_chasing := false
    last_known_player_pos := none
    last_known_pos := none
    current_move_delay :=
      match t with
      | AIType.PATROL => 3 / 10
      | AIType.DETECTOR => 1 / 2
      | AIType.ENHANCED => 1 / 4 }

/-- `AI.can_move(maze)` (the `maze` argument is unused in the source): when
at least `current_move_delay` has elapsed since `last_move_time`, record the
current instant in `last_move_time` and answer `True`; otherwise answer
`False` with no state change. -/
def AI.can_move (now : Rat) (a : AI) : Bool × AI :=
  if now - a.last_move_time < a.current_move_delay then (false, a)
  else (true, { a with last_move_time := now })

/-- `AI.move_to(target_pos, maze)`: step onto the head of `chase_path` when
it is an in-bounds open cell, popping it; `target_pos` is unused in the
source. -/
def AI.move_to (target_pos : Position) (maze : Maze) (a : AI) : Bool × AI :=
  match a.chase_path with
  | [] => (false, a)
  | next_step :: rest =>
      if inBounds MAZE_WIDTH MAZE_HEIGHT next_step ∧
          mazeAt maze next_step.x next_step.y = 0 then
        (true, { a with pos := next_step, chase_path := rest })
      else (false, a)

/-- `AI.set_chase_target(target_pos)`: the game's `find_path_astar` is the
`pathfinder` argument here. -/
def AI.set_chase_target (pathfinder : Position → Position → List Position)
    (target_pos : Position) (a : AI) : AI :=
  { a with chase_path := pathfinder a.pos target_pos }

/-- `self.pos.distance_to(q) < r` for `r` a radius (with `none` standing for
`float('inf')`, below which every finite distance lies).  On integer grids
`sqrt d < r ↔ 0 ≤ r ∧ d < r²`, so the square-free comparison is exact. -/
def ltVision (p q : Position) : Option Rat → Bool
  | none => true
  | some r => decide ((0 : Rat) ≤ r) && decide ((Position.dist_sq p q : Rat) < r * r)

/-- The recurring `if self.chase_path: self.move_to(self.chase_path[0], maze)`
tail of the behaviour methods. -/
def AI.step_chase (maze : Maze) (a : AI) : AI :=
  if a.chase_path = [] then a
  else (a.move_to (a.chase_path.headD ⟨0, 0⟩) maze).2

/-- Tail of `_patrol_behavior` (everything after the sight/chase branch): when
not chasing, follow the patrol path — bump `path_index` on arrival, re-plan to
the current patrol point and step; when chasing with a non-empty path, step.
`patrol_path[path_index]` is read with a junk default: the source keeps
`path_index < len(patrol_path)` (it is only ever set to 0 or reduced mod the
length) so the default is never returned. -/
def AI.patrol_tail (pathfinder : Position → Position → List Position)
    (maze : Maze) (a : AI) : AI :=
  if a.is_chasing = false then
    if a.patrol_path = [] then a
    else
      let a1 :=
        if a.pos = a.patrol_path.getD a.path_index ⟨0, 0⟩ then
          { a with path_index := (a.path_index + 1) % a.patrol_path.length }
        else a
      (a1.set_chase_target pathfinder (a1.patrol_path.getD a1.path_index ⟨0, 0⟩)).step_chase
        maze
  else a.step_chase maze

/-- `AI._patrol_behavior(player_pos, player_stealthed, maze)`. -/
def AI.patrol_behavior (pathfinder : Position → Position → List Position)
    (player_pos : Position) (player_stealthed : Bool) (maze : Maze) (a : AI) : AI :=
  let player_in_sight := !player_stealthed && ltVision a.pos player_pos a.vision_radius
  if player_in_sight = true then
    let a1 :=
      if a.is_chasing = false ∨ a.last_known_player_pos ≠ some player_pos then
        { a.set_chase_target pathfinder player_pos with
            is_chasing := true, last_known_player_pos := some player_pos }
      else a
    a1.patrol_tail pathfinder maze
  else if a.is_chasing = true then
    if some a.pos = a.last_known_player_pos ∨ a.chase_path = [] then
      ({ a with is_chasing := false, chase_path := [],
                last_known_player_pos := none }).patrol_tail pathfinder maze
    else (a.move_to (a.chase_path.headD ⟨0, 0⟩) maze).2
  else a.patrol_tail pathfinder maze

/-- `AI._detector_behavior(player_pos, player_stealthed, maze)`. -/
def AI.detector_behavior (pathfinder : Position → Position → List Position)
    (player_pos : Position) (player_stealthed : Bool) (maze : Maze) (a : AI) : AI :=
  let a1 :=
    if player_stealthed = false then a.set_chase_target pathfinder player_pos
    else if a.chase_path = [] then a.set_chase_target pathfinder a.pos
    else a
  a1.step_chase maze

/-- `AI._enhanced_behavior(player, maze_data)`.  The behaviour calls
`player.is_stealthed()` itself (lazy-expiry side effect), so the possibly
updated player is returned.  `wander` stands for the `random.randint` retry
loop's result — an arbitrary cell whose maze value is not 1. -/
def AI.enhanced_behavior (pathfinder : Position → Position → List Position)
    (wander : Position) (now : Rat) (player : Player) (maze : Maze) (a : AI) :
    AI × Player :=
  let sp := player.is_stealthed now
  let pl := sp.2
  let a1 :=
    if sp.1 = false then
      let predicted : Position :=
        ⟨pl.pos.x + pl.last_move_direction.1 * 3, pl.pos.y + pl.last_move_direction.2 * 3⟩
      let a2 :=
        if ¬ (inBounds MAZE_WIDTH MAZE_HEIGHT predicted ∧
              mazeAt maze predicted.x predicted.y = 0) then
          a.set_chase_target pathfinder pl.pos
        else a.set_chase_target pathfinder predicted
      { a2 with last_known_pos := some pl.pos }
    else
      match a.last_known_pos with
      | some lkp =>
          if a.pos = lkp then { a with last_known_pos := none, chase_path := [] }
          else a.set_chase_target pathfinder lkp
      | none =>
          if a.chase_path = [] then a.set_chase_target pathfinder wander else a
  (a1.step_chase maze, pl)

/-- `AI.update(player, maze)`: gate on `can_move`, then dispatch on the AI
type; patrol and detector receive `player.pos` and `player.is_stealthed()`
(whose lazy expiry updates the player), enhanced receives the player. -/
def AI.aiUpdate (pathfinder : Position → Position → List Position)
    (wander : Position) (now : Rat) (player : Player) (maze : Maze) (a : AI) :
    AI × Player :=
  let cm := a.can_move now
  if cm.1 = true then
    match cm.2.type with
    | AIType.PATROL =>
        let sp := player.is_stealthed now
        ((cm.2).patrol_behavior pathfinder player.pos sp.1 maze, sp.2)
    | AIType.DETECTOR =>
        let sp := player.is_stealthed now
        ((cm.2).detector_behavior pathfinder player.pos sp.1 maze, sp.2)
    | AIType.ENHANCED => (cm.2).enhanced_behavior pathfinder wander now player maze
  else (a, player)

/-- The AI fields the behaviour methods never write: the type, the move
timestamp and the current delay. -/
def AI.sameMeta (a b : AI) : Prop :=
  a.type = b.type ∧ a.last_move_time = b.last_move_time ∧
    a.current_move_delay = b.current_move_delay

theorem sameMeta_trans {a b c : AI} (h1 : AI.sameMeta a b) (h2 : AI.sameMeta b c) :
    AI.sameMeta a c :=
  ⟨h1.1.trans h2.1, h1.2.1.trans h2.2.1, h1.2.2.trans h2.2.2⟩

theorem move_to_sameMeta (t : Position) (m : Maze) (a : AI) :
    AI.sameMeta (a.move_to t m).2 a := by
  unfold AI.move_to
  cases hcp : a.chase_path with
  | nil => exact ⟨rfl, rfl, rfl⟩
  | cons n rest =>
      dsimp only
      split
      · exact ⟨rfl, rfl, rfl⟩
      · exact ⟨rfl, rfl, rfl⟩

theorem set_chase_target_sameMeta (pf : Position → Position → List Position)
    (t : Position) (a : AI) : AI.sameMeta (a.set_chase_target pf t) a :=
  ⟨rfl, rfl, rfl⟩

theorem step_chase_sameMeta (m : Maze) (a : AI) : AI.sameMeta (a.step_chase m) a := by
  unfold AI.step_chase
  split
  · exact ⟨rfl, rfl, rfl⟩
  · exact move_to_sameMeta _ m a

theorem patrol_tail_sameMeta (pf : Position → Position → List Position) (m : Maze)
    (a : AI) : AI.sameMeta (a.patrol_tail pf m) a := by
  simp only [AI.patrol_tail]
  split
  · split
    · exact ⟨rfl, rfl, rfl⟩
    · refine sameMeta_trans (step_chase_sameMeta m _) ?_
      refine sameMeta_trans (set_chase_target_sameMeta pf _ _) ?_
      split
      · exact ⟨rfl, rfl, rfl⟩
      · exact ⟨rfl, rfl, rfl⟩
  · exact step_chase_sameMeta m a

theorem patrol_behavior_sameMeta (pf : Position → Position → List Position)
    (pp : Position) (ps : Bool) (m : Maze) (a : AI) :
    AI.sameMeta (a.patrol_behavior pf pp ps m) a := by
  simp only [AI.patrol_behavior]
  split
  · refine sameMeta_trans (patrol_tail_sameMeta pf m _) ?_
    split
    · exact ⟨rfl, rfl, rfl⟩
    · exact ⟨rfl, rfl, rfl⟩
  · split
    · split
      · exact sameMeta_trans (patrol_tail_sameMeta pf m _) ⟨rfl, rfl, rfl⟩
      · exact move_to_sameMeta _ m a
    · exact patrol_tail_sameMeta pf m a

theorem detector_behavior_sameMeta (pf : Position → Position → List Position)
    (pp : Position) (ps : Bool) (m : Maze) (a : AI) :
    AI.sameMeta (a.detector_behavior pf pp ps m) a := by
  simp only [AI.detector_behavior]
  refine sameMeta_trans (step_chase_sameMeta m _) ?_
  split
  · exact ⟨rfl, rfl, rfl⟩
  · split
    · exact ⟨rfl, rfl, rfl⟩
    · exact ⟨rfl, rfl, rfl⟩

theorem enhanced_behavior_sameMeta (pf : Position → Position → List Position)
    (w : Position) (now : Rat) (p : Player) (m : Maze) (a : AI) :
    AI.sameMeta (a.enhanced_behavior pf w now p m).1 a := by
  simp only [AI.enhanced_behavior]
  refine sameMeta_trans (step_chase_sameMeta m _) ?_
  split
  · split
    · exact ⟨rfl, rfl, rfl⟩
    · exact ⟨rfl, rfl, rfl⟩
  · split
    · split
      · exact ⟨rfl, rfl, rfl⟩
      · exact ⟨rfl, rfl, rfl⟩
    · split
      · exact ⟨rfl, rfl, rfl⟩
      · exact ⟨rfl, rfl, rfl⟩

theorem enhanced_behavior_player (pf : Position → Position → List Position)
    (w : Position) (now : Rat) (p : Player) (m : Maze) (a : AI) :
    (a.enhanced_behavior pf w now p m).2 = (p.is_stealthed now).2 := rfl

theorem can_move_snd_type (now : Rat) (a : AI) : (a.can_move now).2.type = a.type := by
  unfold AI.can_move
  split
  · rfl
  · rfl

theorem can_move_true_iff (now : Rat) (a : AI) :
    (a.can_move now).1 = true ↔ a.current_move_delay ≤ now - a.last_move_time := by
  unfold AI.can_move
  by_cases hlt : now - a.last_move_time < a.current_move_delay
  · rw [if_pos hlt]
    dsimp only
    constructor
    · intro h
      cases h
    · intro hle
      exact absurd hlt (not_lt.mpr hle)
  · rw [if_neg hlt]
    exact ⟨fun _ => not_lt.mp hlt, fun _ => rfl⟩

theorem can_move_true_snd (now : Rat) (a : AI) (h : (a.can_move now).1 = true) :
    (a.can_move now).2 = { a with last_move_time := now } := by
  unfold AI.can_move at h ⊢
  by_cases hlt : now - a.last_move_time < a.current_move_delay
  · rw [if_pos hlt] at h
    cases h
  · rw [if_neg hlt]

theorem can_move_false_snd (now : Rat) (a : AI) (h : (a.can_move now).1 = false) :
    (a.can_move now).2 = a := by
  unfold AI.can_move at h ⊢
  by_cases hlt : now - a.last_move_time < a.current_move_delay
  · rw [if_pos hlt]
  · rw [if_neg hlt] at h
    cases h

theorem aiUpdate_fst_sameMeta_true (pf : Position → Position → List Position)
    (w : Position) (now : Rat) (p : Player) (m : Maze) (a : AI)
    (h : (a.can_move now).1 = true) :
    AI.sameMeta (AI.aiUpdate pf w now p m a).1 (a.can_move now).2 := by
  simp only [AI.aiUpdate]
  split
  · split
    · exact patrol_behavior_sameMeta pf _ _ m _
    · exact detector_behavior_sameMeta pf _ _ m _
    · exact enhanced_behavior_sameMeta pf w now p m _
  · next h' => exact absurd h h'

theorem aiUpdate_fst_type (pf : Position → Position → List Position)
    (w : Position) (now : Rat) (p : Player) (m : Maze) (a : AI) :
    (AI.aiUpdate pf w now p m a).1.type = a.type := by
  by_cases h : (a.can_move now).1 = true
  · exact ((aiUpdate_fst_sameMeta_true pf w now p m a h).1).trans (can_move_snd_type now a)
  · simp only [AI.aiUpdate]
    rw [if_neg h]

theorem aiUpdate_snd_player (pf : Position → Position → List Position)
    (w : Position) (now : Rat) (p : Player) (m : Maze) (a : AI) :
    (AI.aiUpdate pf w now p m a).2 = p ∨
      (AI.aiUpdate pf w now p m a).2 = (p.is_stealthed now).2 := by
  simp only [AI.aiUpdate]
  split
  · split
    · exact Or.inr rfl
    · exact Or.inr rfl
    · exact Or.inr (enhanced_behavior_player pf w now p m _)
  · exact Or.inl rfl

theorem is_stealthed_snd_cases (now : Rat) (p : Player) :
    (p.is_stealthed now).2 = p ∨
      (p.is_stealthed now).2 = { p with stealth_active := 0 } := by
  unfold Player.is_stealthed
  by_cases h0 : 0 < p.stealth_active
  · rw [if_pos h0]
    by_cases hn : now < p.stealth_active
    · rw [if_pos hn]
      exact Or.inl rfl
    · rw [if_neg hn]
      exact Or.inr rfl
  · rw [if_neg h0]
    exact Or.inl rfl

theorem is_stealthed_frame (now : Rat) (p : Player) :
    (p.is_stealthed now).2.pos = p.pos ∧
    (p.is_stealthed now).2.stars_collected = p.stars_collected ∧
    (p.is_stealthed now).2.invincible_until = p.invincible_until := by
  rcases is_stealthed_snd_cases now p with h | h
  · rw [h]
    exact ⟨rfl, rfl, rfl⟩
  · rw [h]
    exact ⟨rfl, rfl, rfl⟩

theorem is_stealthed_again (now : Rat) (p : Player) :
    ((p.is_stealthed now).2.is_stealthed now).1 = (p.is_stealthed now).1 := by
  by_cases h0 : 0 < p.stealth_active <;> by_cases hn : now < p.stealth_active <;>
    simp [Player.is_stealthed, h0, hn]

theorem aiUpdate_snd_frame (pf : Position → Position → List Position)
    (w : Position) (now : Rat) (p : Player) (m : Maze) (a : AI) :
    (AI.aiUpdate pf w now p m a).2.pos = p.pos ∧
    (AI.aiUpdate pf w now p m a).2.stars_collected = p.stars_collected ∧
    (AI.aiUpdate pf w now p m a).2.invincible_until = p.invincible_until := by
  rcases aiUpdate_snd_player pf w now p m a with h | h
  · rw [h]
    exact ⟨rfl, rfl, rfl⟩
  · rw [h]
    exact is_stealthed_frame now p

/-- C10: `AI.can_move` answers `True` exactly when at least
`current_move_delay` has elapsed since `last_move_time` (the instant of the
previous `True` answer), and then — and only then — stamps `last_move_time`
with the current instant.  The stamp survives the behaviour step whether or
not it moves the AI (the behaviours never write `last_move_time` or
`current_move_delay`), so a pursuer whose path is empty or blocked still
consumes its whole movement window: a further `can_move` before
`current_move_delay` has elapsed anew answers `False`. -/
theorem ai_can_move_consumes_window (now later : Rat)
    (pf : Position → Position → List Position) (w : Position) (p : Player)
    (m : Maze) (a : AI) :
    ((a.can_move now).1 = true ↔ a.current_move_delay ≤ now - a.last_move_time) ∧
    ((a.can_move now).1 = true →
      (a.can_move now).2 = { a with last_move_time := now }) ∧
    ((a.can_move now).1 = false → (a.can_move now).2 = a) ∧
    ((a.can_move now).1 = true →
      (AI.aiUpdate pf w now p m a).1.last_move_time = now ∧
      (AI.aiUpdate pf w now p m a).1.current_move_delay = a.current_move_delay ∧
      (later - now < a.current_move_delay →
        ((AI.aiUpdate pf w now p m a).1.can_move later).1 = false)) := by
  refine ⟨can_move_true_iff now a, can_move_true_snd now a, can_move_false_snd now a, ?_⟩
  intro h
  have hmeta := aiUpdate_fst_sameMeta_true pf w now p m a h
  rw [can_move_true_snd now a h] at hmeta
  obtain ⟨hty, hlmt, hcmd⟩ := hmeta
  have hlmt' : (AI.aiUpdate pf w now p m a).1.last_move_time = now := hlmt
  have hcmd' : (AI.aiUpdate pf w now p m a).1.current_move_delay =
      a.current_move_delay := hcmd
  refine ⟨hlmt', hcmd', ?_⟩
  intro hlater
  unfold AI.can_move
  rw [hlmt', hcmd', if_pos hlater]

/-- When `g` is reachable from `s ≠ g`, the walk's final step lands on `g`,
so `g` is an in-bounds open cell. -/
theorem reaches_target_open {w h : Int} {m : Maze} {s g : Position}
    (hr : Reaches w h m s g) (hne : s ≠ g) :
    inBounds w h g ∧ mazeAt m g.x g.y = 0 := by
  rcases Relation.ReflTransGen.cases_tail hr with heq | ⟨c, _, hcg⟩
  · exact absurd heq.symm hne
  · exact ⟨hcg.2.1, hcg.2.2⟩

/-- C8: `find_path_astar` totalises — it always terminates with a list, and
that list is empty whenever `start == goal` or the goal is unreachable (in
particular when the goal is a wall cell or out of range, since no step ever
enters such a cell); and `AI.move_to` on an empty `chase_path` answers
`False` and moves nothing. -/
theorem astar_empty_path_cases (maze : Maze) (start goal : Position)
    (hbin : mazeBinary maze) :
    (∃ fuel res, astarLoop maze goal fuel (astarInit start goal) = some res) ∧
    (start = goal →
      ∀ fuel res, astarLoop maze goal fuel (astarInit start goal) = some res →
        res = []) ∧
    (¬ Reaches MAZE_WIDTH MAZE_HEIGHT maze start goal →
      ∀ fuel res, astarLoop maze goal fuel (astarInit start goal) = some res →
        res = []) ∧
    ((¬ inBounds MAZE_WIDTH MAZE_HEIGHT goal ∨ mazeAt maze goal.x goal.y ≠ 0) →
      start ≠ goal →
      ∀ fuel res, astarLoop maze goal fuel (astarInit start goal) = some res →
        res = []) ∧
    (∀ (target : Position) (m' : Maze) (a : AI), a.chase_path = [] →
      AI.move_to target m' a = (false, a)) := by
  have hcases : ∀ fuel res, astarLoop maze goal fuel (astarInit start goal) = some res →
      res = [] ∨ (goal ∈ res ∧ Reaches MAZE_WIDTH MAZE_HEIGHT maze start goal) := by
    intro fuel res hres
    obtain ⟨_, hchain, hlast, _⟩ :=
      astarLoop_spec maze start goal hbin fuel _ (astarInit_inv maze start goal) res hres
    by_cases hrne : res = []
    · exact Or.inl hrne
    · right
      have hglast : res.getLast hrne = goal := by
        have h1 := List.getLast?_eq_getLast res hrne
        have h2 := hlast hrne
        rw [h1] at h2
        exact Option.some.injEq _ _ ▸ h2
      have hmem : goal ∈ res := hglast ▸ List.getLast_mem hrne
      exact ⟨hmem, Reaches.of_chain hchain (List.mem_cons_of_mem _ hmem)⟩
  refine ⟨astar_terminates maze start goal hbin, ?_, ?_, ?_, ?_⟩
  · intro heq fuel res hres
    rcases hcases fuel res hres with h | ⟨hmem, _⟩
    · exact h
    · have hstart := (astarLoop_spec maze start goal hbin fuel _
        (astarInit_inv maze start goal) res hres).1
      rw [heq] at hstart
      exact absurd hmem hstart
  · intro hnr fuel res hres
    rcases hcases fuel res hres with h | ⟨_, hr⟩
    · exact h
    · exact absurd hr hnr
  · intro hbad hne fuel res hres
    rcases hcases fuel res hres with h | ⟨_, hr⟩
    · exact h
    · obtain ⟨hin, hopen⟩ := reaches_target_open hr hne
      rcases hbad with hb | hb
      · exact absurd hin hb
      · exact absurd hopen hb
  · intro target m' a hcp
    unfold AI.move_to
    rw [hcp]

/-- Witness for `astar_empty_path_cases` on the all-open grid. -/
theorem astar_empty_path_cases_witness :
    mazeBinary mazeAllOpen ∧
    ((∃ fuel res,
        astarLoop mazeAllOpen ⟨0, 0⟩ fuel (astarInit ⟨0, 0⟩ ⟨0, 0⟩) = some res) ∧
      ((⟨0, 0⟩ : Position) = ⟨0, 0⟩ →
        ∀ fuel res,
          astarLoop mazeAllOpen ⟨0, 0⟩ fuel (astarInit ⟨0, 0⟩ ⟨0, 0⟩) = some res →
            res = []) ∧
      (¬ Reaches MAZE_WIDTH MAZE_HEIGHT mazeAllOpen ⟨0, 0⟩ ⟨0, 0⟩ →
        ∀ fuel res,
          astarLoop mazeAllOpen ⟨0, 0⟩ fuel (astarInit ⟨0, 0⟩ ⟨0, 0⟩) = some res →
            res = []) ∧
      ((¬ inBounds MAZE_WIDTH MAZE_HEIGHT ⟨0, 0⟩ ∨
          mazeAt mazeAllOpen (0 : Int) (0 : Int) ≠ 0) →
        (⟨0, 0⟩ : Position) ≠ ⟨0, 0⟩ →
        ∀ fuel res,
          astarLoop mazeAllOpen ⟨0, 0⟩ fuel (astarInit ⟨0, 0⟩ ⟨0, 0⟩) = some res →
            res = []) ∧
      (∀ (target : Position) (m' : Maze) (a : AI), a.chase_path = [] →
        AI.move_to target m' a = (false, a))) :=
  ⟨by decide, astar_empty_path_cases mazeAllOpen ⟨0, 0⟩ ⟨0, 0⟩ (by decide)⟩

/-- `GameState` enum. -/
inductive GameState where
  | MENU
  | PLAYING
  | WON
  | LOST
deriving DecidableEq, Repr

/-- `EventType` enum. -/
inductive EventType where
  | INVINCIBLE
  | WALL_PASS
  | MAP_DARK
  | ENEMY_SPEED_UP
deriving DecidableEq, Repr

/-- The random draws one `update` tick can make, as an oracle:
`choosePos` is `random.choice` on a list of positions, `chooseEvent` is
`random.choice(list(EventType))`, `wander` the enhanced AI's random open
cell, and `pathfinder` the game's `find_path_astar`. -/
structure GameOracle where
  choosePos : List Position → Position
  chooseEvent : EventType
  wander : Position
  pathfinder : Position → Position → List Position

/-- The mutable fields of `StarMazeGame` that `update` reads or writes. -/
structure GameSt where
  state : GameState
  maze : Maze
  player : Player
  stars : List Position
  exit_pos : Option Position
  minimap_item_pos : Option Position
  minimap_active_until : Rat
  event_box_pos : Option Position
  current_event : Option EventType
  event_active_until : Rat
  ais : List AI
  start_time : Rat

/-- The grid coordinates `generate_*`/`spawn_*` iterate over: `y` over
`range(len(maze))`, `x` over `range(len(maze[0]))` (`headD` renders the
first row; an empty maze would crash the source, here it gives no cells). -/
def gridCells (m : Maze) : List Position :=
  (List.range m.length).flatMap fun y =>
    (List.range (m.headD []).length).map fun x => ⟨(x : Int), (y : Int)⟩

/-- The candidate exit cells of `generate_exit_point`: the four interior
border edges (`y = 1`, `y = MAZE_HEIGHT - 2`, `x = 1`, `x = MAZE_WIDTH - 2`,
each with the other coordinate in `1 .. 23`), open cells only, in the
source's append order. -/
def exitRingCandidates (m : Maze) : List Position :=
  (((List.range (MAZE_WIDTH - 2).toNat).map
        fun (i : Nat) => (⟨(i : Int) + 1, 1⟩ : Position)).filter
      fun p => decide (mazeAt m p.x p.y = 0)) ++
    (((List.range (MAZE_WIDTH - 2).toNat).map
          fun (i : Nat) => (⟨(i : Int) + 1, MAZE_HEIGHT - 2⟩ : Position)).filter
        fun p => decide (mazeAt m p.x p.y = 0)) ++
    (((List.range (MAZE_HEIGHT - 2).toNat).map
          fun (i : Nat) => (⟨1, (i : Int) + 1⟩ : Position)).filter
        fun p => decide (mazeAt m p.x p.y = 0)) ++
    (((List.range (MAZE_HEIGHT - 2).toNat).map
          fun (i : Nat) => (⟨MAZE_WIDTH - 2, (i : Int) + 1⟩ : Position)).filter
        fun p => decide (mazeAt m p.x p.y = 0))

/-- `generate_exit_point`: choose among the ring cells farther than
`VISION_RADIUS + 3` from the player (`distance_to > 8 ↔ dist_sq > 8²` on the
integer grid), falling back to any ring cell, else do nothing. -/
def generate_exit_point (o : GameOracle) (g : GameSt) : GameSt :=
  let possible := exitRingCandidates g.maze
  let safe := possible.filter fun p =>
    decide ((VISION_RADIUS + 3) ^ 2 < Position.dist_sq p g.player.pos)
  if safe ≠ [] then { g with exit_pos := some (o.choosePos safe) }
  else if possible ≠ [] then { g with exit_pos := some (o.choosePos possible) }
  else g

/-- `spawn_enhanced_ai`: one enhanced AI on a random open cell farther than
8 from the player (`distance_to > 8 ↔ dist_sq > 8²`), if any. -/
def spawn_enhanced_ai (o : GameOracle) (g : GameSt) : GameSt :=
  let empty_spaces := (gridCells g.maze).filter fun p =>
    decide (mazeAt g.maze p.x p.y = 0) &&
      decide ((8 : Int) ^ 2 < Position.dist_sq p g.player.pos)
  if empty_spaces ≠ [] then
    let q := o.choosePos empty_spaces
    { g with ais := g.ais ++ [AI.init q.x q.y AIType.ENHANCED] }
  else g

/-- One matched star of the collection loop: remove it, count it, spawn the
enhanced AI when the count reaches 3 with none present, generate the exit
when it reaches 5 with no exit yet. -/
def collectOne (o : GameOracle) (g : GameSt) (star : Position) : GameSt :=
  let g1 := { g with
    stars := g.stars.erase star
    player := { g.player with stars_collected := g.player.stars_collected + 1 } }
  let g2 :=
    if g1.player.stars_collected = 3 ∧ ¬ ∃ b ∈ g1.ais, b.type = AIType.ENHANCED then
      spawn_enhanced_ai o g1
    else g1
  if g2.player.stars_collected = 5 ∧ g2.exit_pos = none then
    generate_exit_point o g2
  else g2

/-- The star-collection loop of `update`: iterate over a copy of
`self.stars`, handling each star under the player with `collectOne`. -/
def collectStarsLoop (o : GameOracle) : GameSt → List Position → GameSt
  | g, [] => g
  | g, star :: rest =>
      if g.player.pos = star then collectStarsLoop o (collectOne o g star) rest
      else collectStarsLoop o g rest

/-- The minimap-item pickup block of `update`. -/
def minimapPhase (now : Rat) (g : GameSt) : GameSt :=
  match g.minimap_item_pos with
  | some mp =>
      if g.player.pos = mp then
        { g with minimap_active_until := now + 5, minimap_item_pos := none }
      else g
  | none => g

/-- `activate_random_event`: choose an event, mark it active for 5 seconds,
and apply its start effect. -/
def activate_random_event (o : GameOracle) (now : Rat) (g : GameSt) : GameSt :=
  let chosen := o.chooseEvent
  let gactive := { g with current_event := some chosen, event_active_until := now + 5 }
  match chosen with
  | EventType.INVINCIBLE =>
      { gactive with player := { gactive.player with invincible_until := now + 5 } }
  | EventType.WALL_PASS =>
      { gactive with player := { gactive.player with wall_pass_until := now + 5 } }
  | EventType.MAP_DARK => gactive
  | EventType.ENEMY_SPEED_UP =>
      let sped := gactive.ais.map fun (b : AI) =>
        { b with current_move_delay := b.base_move_delay * (1 / 2) }
      { gactive with ais := sped }

/-- The event-box pickup block of `update`. -/
def eventBoxPhase (o : GameOracle) (now : Rat) (g : GameSt) : GameSt :=
  match g.event_box_pos with
  | some bp =>
      if g.player.pos = bp then activate_random_event o now { g with event_box_pos := none }
      else g
  | none => g

/-- `deactivate_current_event`: undo the event's effect and clear it. -/
def deactivate_current_event (g : GameSt) : GameSt :=
  let g1 :=
    match g.current_event with
    | some EventType.INVINCIBLE => { g with player := { g.player with invincible_until := 0 } }
    | some EventType.WALL_PASS => { g with player := { g.player with wall_pass_until := 0 } }
    | some EventType.ENEMY_SPEED_UP =>
        let slowed := g.ais.map fun (b : AI) =>
          { b with current_move_delay := b.base_move_delay }
        { g with ais := slowed }
    | _ => g
  { g1 with current_event := none, event_active_until := 0 }

/-- The event-expiry block of `update`. -/
def eventExpiryPhase (now : Rat) (g : GameSt) : GameSt :=
  match g.current_event with
  | some _ => if g.event_active_until ≤ now then deactivate_current_event g else g
  | none => g

/-- The victory condition of `update`: all 5 stars, an exit in place, player
exactly on it. -/
def wonCheck (g : GameSt) : Bool :=
  decide (g.player.stars_collected = 5) &&
    match g.exit_pos with
    | some e => decide (g.player.pos.x = e.x) && decide (g.player.pos.y = e.y)
    | none => false

/-- The AI loop of `update`: update each AI in order (threading the player,
whose `is_stealthed` reads have a lazy-expiry side effect), and on a
collision with an exposed player stop early with the LOST flag — the

Python `and` chain only calls `is_stealthed`/`is_invincible` when the
positions coincide. -/
def aiLoop (pf : Position → Position → List Position) (wpos : Position) (now : Rat)
    (m : Maze) : List AI → Player → List AI → List AI × Player × Bool
  | [], pl, acc => (acc, pl, false)
  | b :: rest, pl, acc =>
      let r := AI.aiUpdate pf wpos now pl m b
      if r.1.pos = r.2.pos then
        let sp := r.2.is_stealthed now
        if sp.1 = false then
          (if sp.2.is_invincible now = false then (acc ++ r.1 :: rest, sp.2, true)
           else aiLoop pf wpos now m rest sp.2 (acc ++ [r.1]))
        else aiLoop pf wpos now m rest sp.2 (acc ++ [r.1])
      else aiLoop pf wpos now m rest r.2 (acc ++ [r.1])

/-- The AI block of `update` as a phase on the game state. -/
def aiPhase (o : GameOracle) (now : Rat) (g : GameSt) : GameSt :=
  let r := aiLoop o.pathfinder o.wander now g.maze g.ais g.player []
  { g with ais := r.1, player := r.2.1,
           state := if r.2.2 then GameState.LOST else g.state }

/-- `StarMazeGame.update` at the instant `now` (`time.time()` sampled once
per tick by convention): no-op unless PLAYING; LOST on timeout; then star
collection, minimap item, event box, event expiry, the victory check, and
the AI loop. -/
def gameUpdate (o : GameOracle) (now : Rat) (g : GameSt) : GameSt :=
  if g.state ≠ GameState.PLAYING then g
  else if GAME_TIME_LIMIT < now - g.start_time then { g with state := GameState.LOST }
  else
    let g1 := collectStarsLoop o g g.stars
    let g2 := minimapPhase now g1
    let g3 := eventBoxPhase o now g2
    let g4 := eventExpiryPhase now g3
    if wonCheck g4 then { g4 with state := GameState.WON }
    else aiPhase o now g4

/-- Number of enhanced AIs in a list. -/
def enhCount (l : List AI) : Nat :=
  l.countP fun b => decide (b.type = AIType.ENHANCED)

theorem enhCount_append (l1 l2 : List AI) :
    enhCount (l1 ++ l2) = enhCount l1 + enhCount l2 :=
  List.countP_append _ _ _

theorem enhCount_map_of_type {f : AI → AI} (hf : ∀ b, (f b).type = b.type)
    (l : List AI) : enhCount (l.map f) = enhCount l := by
  unfold enhCount
  rw [List.countP_map]
  refine List.countP_congr fun b _ => ?_
  simp only [Function.comp_apply, hf b]

theorem enhCount_eq_zero_of_none {l : List AI}
    (h : ¬ ∃ b ∈ l, b.type = AIType.ENHANCED) : enhCount l = 0 := by
  unfold enhCount
  rw [List.countP_eq_zero]
  intro b hb
  simp only [decide_eq_true_eq]
  exact fun he => h ⟨b, hb, he⟩

/-- Membership in the exit ring candidate list means: an open cell on the
interior border ring (`MAZE_WIDTH - 2 = MAZE_HEIGHT - 2 = 23`). -/
theorem exitRing_mem {m : Maze} {p : Position} (hp : p ∈ exitRingCandidates m) :
    mazeAt m p.x p.y = 0 ∧
    1 ≤ p.x ∧ p.x ≤ 23 ∧ 1 ≤ p.y ∧ p.y ≤ 23 ∧
    (p.x = 1 ∨ p.x = 23 ∨ p.y = 1 ∨ p.y = 23) := by
  have h23w : (MAZE_WIDTH - 2).toNat = 23 := by decide
  have h23h : (MAZE_HEIGHT - 2).toNat = 23 := by decide
  have hMW : MAZE_WIDTH = (25 : Int) := rfl
  have hMH : MAZE_HEIGHT = (25 : Int) := rfl
  have edge : ∀ (mkf : Nat → Position) (n : Nat),
      p ∈ ((List.range n).map mkf).filter (fun q => decide (mazeAt m q.x q.y = 0)) →
      ∃ i, i < n ∧ p = mkf i ∧ mazeAt m p.x p.y = 0 := by
    intro mkf n hmem
    rw [List.mem_filter, decide_eq_true_eq] at hmem
    obtain ⟨hmm, hopen⟩ := hmem
    rw [List.mem_map] at hmm
    obtain ⟨i, hir, hpe⟩ := hmm
    exact ⟨i, List.mem_range.mp hir, hpe.symm, hopen⟩
  unfold exitRingCandidates at hp
  rcases List.mem_append.mp hp with hp | h4
  · rcases List.mem_append.mp hp with hp | h3
    · rcases List.mem_append.mp hp with h1 | h2
      · obtain ⟨i, hir, hpe, hopen⟩ := edge _ _ h1
        rw [h23w] at hir
        subst hpe
        refine ⟨hopen, ?_⟩
        dsimp only
        exact ⟨by omega, by omega, by omega, by omega, Or.inr (Or.inr (Or.inl rfl))⟩
      · obtain ⟨i, hir, hpe, hopen⟩ := edge _ _ h2
        rw [h23w] at hir
        subst hpe
        refine ⟨hopen, ?_⟩
        dsimp only
        simp only [hMW, hMH]
        exact ⟨by omega, by omega, by omega, by omega, Or.inr (Or.inr (Or.inr (by omega)))⟩
    · obtain ⟨i, hir, hpe, hopen⟩ := edge _ _ h3
      rw [h23h] at hir
      subst hpe
      refine ⟨hopen, ?_⟩
      dsimp only
      exact ⟨by omega, by omega, by omega, by omega, Or.inl rfl⟩
  · obtain ⟨i, hir, hpe, hopen⟩ := edge _ _ h4
    rw [h23h] at hir
    subst hpe
    refine ⟨hopen, ?_⟩
    dsimp only
    simp only [hMW, hMH]
    exact ⟨by omega, by omega, by omega, by omega, Or.inr (Or.inl (by omega))⟩

/-- What one star pickup / one whole pass of the collection loop does to the
game state, as seen by C3 and C6: the maze, player position and game state
are untouched, the star count only grows, an existing exit is kept, a fresh
exit is an exit-ring cell generated at star count 5, added AIs are enhanced
AIs on far open cells, and the enhanced count either stays or steps from 0
to 1 exactly when the count crosses 3. -/
structure StepOk (g g' : GameSt) : Prop where
  hmaze : g'.maze = g.maze
  hpos : g'.player.pos = g.player.pos
  hstate : g'.state = g.state
  hcount : g.player.stars_collected ≤ g'.player.stars_collected
  hexitp : ∀ e, g.exit_pos = some e → g'.exit_pos = some e
  hexitf : g.exit_pos = none →
    g'.exit_pos = none ∨
      ∃ e, g'.exit_pos = some e ∧ e ∈ exitRingCandidates g.maze ∧
        5 ≤ g'.player.stars_collected
  hadd : ∃ add : List AI, g'.ais = g.ais ++ add ∧
    ∀ b ∈ add, b.type = AIType.ENHANCED ∧ mazeAt g.maze b.pos.x b.pos.y = 0 ∧
      (8 : Int) ^ 2 < Position.dist_sq b.pos g.player.pos
  henh : enhCount g'.ais = enhCount g.ais ∨
    (enhCount g.ais = 0 ∧ enhCount g'.ais = 1 ∧
      g.player.stars_collected < 3 ∧ 3 ≤ g'.player.stars_collected)

theorem stepOk_refl (g : GameSt) : StepOk g g :=
  ⟨rfl, rfl, rfl, le_refl _, fun _ he => he, fun h => Or.inl h,
    ⟨[], (List.append_nil _).symm, by simp⟩, Or.inl rfl⟩

theorem stepOk_trans {g g' g'' : GameSt} (h1 : StepOk g g') (h2 : StepOk g' g'') :
    StepOk g g'' := by
  refine ⟨h2.hmaze.trans h1.hmaze, h2.hpos.trans h1.hpos, h2.hstate.trans h1.hstate,
    le_trans h1.hcount h2.hcount, fun e he => h2.hexitp e (h1.hexitp e he), ?_, ?_, ?_⟩
  · intro hnone
    rcases h1.hexitf hnone with hn | ⟨e, he, hring, hc5⟩
    · rcases h2.hexitf hn with hn' | ⟨e, he, hring, hc5⟩
      · exact Or.inl hn'
      · exact Or.inr ⟨e, he, h1.hmaze ▸ hring, hc5⟩
    · exact Or.inr ⟨e, h2.hexitp e he, hring, le_trans hc5 h2.hcount⟩
  · obtain ⟨a1, he1, hp1⟩ := h1.hadd
    obtain ⟨a2, he2, hp2⟩ := h2.hadd
    refine ⟨a1 ++ a2, by rw [he2, he1, List.append_assoc], ?_⟩
    intro b hb
    rcases List.mem_append.mp hb with hb | hb
    · exact hp1 b hb
    · obtain ⟨ht, ho, hd⟩ := hp2 b hb
      exact ⟨ht, h1.hmaze ▸ ho, h1.hpos ▸ hd⟩
  · rcases h1.henh with he1 | ⟨hz1, ho1, hl1, hg1⟩
    · rcases h2.henh with he2 | ⟨hz2, ho2, hl2, hg2⟩
      · exact Or.inl (he2.trans he1)
      · exact Or.inr ⟨he1 ▸ hz2, ho2, lt_of_le_of_lt h1.hcount hl2, hg2⟩
    · rcases h2.henh with he2 | ⟨hz2, ho2, hl2, hg2⟩
      · exact Or.inr ⟨hz1, he2.trans ho1, hl1, le_trans hg1 h2.hcount⟩
      · rw [ho1] at hz2
        cases hz2

theorem generate_exit_point_spec (o : GameOracle)
    (hchoice : ∀ l : List Position, l ≠ [] → o.choosePos l ∈ l) (g : GameSt) :
    (generate_exit_point o g).maze = g.maze ∧
    (generate_exit_point o g).player = g.player ∧
    (generate_exit_point o g).state = g.state ∧
    (generate_exit_point o g).stars = g.stars ∧
    (generate_exit_point o g).ais = g.ais ∧
    ((generate_exit_point o g).exit_pos = g.exit_pos ∨
      ∃ e, (generate_exit_point o g).exit_pos = some e ∧
        e ∈ exitRingCandidates g.maze) := by
  simp only [generate_exit_point]
  split
  · next hsafe =>
      refine ⟨rfl, rfl, rfl, rfl, rfl, Or.inr ⟨_, rfl, ?_⟩⟩
      exact List.mem_of_mem_filter (hchoice _ hsafe)
  · split
    · next hposs =>
        refine ⟨rfl, rfl, rfl, rfl, rfl, Or.inr ⟨_, rfl, ?_⟩⟩
        exact hchoice _ hposs
    · exact ⟨rfl, rfl, rfl, rfl, rfl, Or.inl rfl⟩

theorem spawn_enhanced_ai_spec (o : GameOracle)
    (hchoice : ∀ l : List Position, l ≠ [] → o.choosePos l ∈ l) (g : GameSt) :
    (spawn_enhanced_ai o g).maze = g.maze ∧
    (spawn_enhanced_ai o g).player = g.player ∧
    (spawn_enhanced_ai o g).state = g.state ∧
    (spawn_enhanced_ai o g).stars = g.stars ∧
    (spawn_enhanced_ai o g).exit_pos = g.exit_pos ∧
    ∃ add : List AI, (spawn_enhanced_ai o g).ais = g.ais ++ add ∧ add.length ≤ 1 ∧
      ∀ b ∈ add, b.type = AIType.ENHANCED ∧ mazeAt g.maze b.pos.x b.pos.y = 0 ∧
        (8 : Int) ^ 2 < Position.dist_sq b.pos g.player.pos := by
  simp only [spawn_enhanced_ai]
  split
  · next hne =>
      have hmem := hchoice _ hne
      rw [List.mem_filter] at hmem
      obtain ⟨-, hpred⟩ := hmem
      rw [Bool.and_eq_true, decide_eq_true_eq, decide_eq_true_eq] at hpred
      refine ⟨rfl, rfl, rfl, rfl, rfl, [AI.init _ _ AIType.ENHANCED], rfl, by simp, ?_⟩
      intro b hb
      rw [List.mem_singleton] at hb
      subst hb
      exact ⟨rfl, hpred.1, hpred.2⟩
  · exact ⟨rfl, rfl, rfl, rfl, rfl, [], (List.append_nil _).symm, by simp, by simp⟩

theorem list_len_le_one {α : Type} {l : List α} (h : l.length ≤ 1) :
    l = [] ∨ ∃ a, l = [a] := by
  match l, h with
  | [], _ => exact Or.inl rfl
  | [a], _ => exact Or.inr ⟨a, rfl⟩

theorem collectOne_ok (o : GameOracle)
    (hchoice : ∀ l : List Position, l ≠ [] → o.choosePos l ∈ l)
    (g : GameSt) (star : Position) : StepOk g (collectOne o g star) := by
  obtain ⟨g1, hg1⟩ : ∃ g1, ({ g with
      stars := g.stars.erase star
      player := { g.player with stars_collected := g.player.stars_collected + 1 } } :
        GameSt) = g1 := ⟨_, rfl⟩
  have hg1maze : g1.maze = g.maze := by rw [← hg1]
  have hg1pos : g1.player.pos = g.player.pos := by rw [← hg1]
  have hg1state : g1.state = g.state := by rw [← hg1]
  have hg1count : g1.player.stars_collected = g.player.stars_collected + 1 := by rw [← hg1]
  have hg1exit : g1.exit_pos = g.exit_pos := by rw [← hg1]
  have hg1ais : g1.ais = g.ais := by rw [← hg1]
  unfold collectOne
  rw [hg1]
  dsimp only
  have hstep : ∀ g2 : GameSt, StepOk g g2 →
      g2.player.stars_collected = g.player.stars_collected + 1 →
      StepOk g (if g2.player.stars_collected = 5 ∧ g2.exit_pos = none then
        generate_exit_point o g2 else g2) := by
    intro g2 h2 h2c
    by_cases hC2 : g2.player.stars_collected = 5 ∧ g2.exit_pos = none
    · rw [if_pos hC2]
      obtain ⟨hgm, hgp, hgs, hgst, hga, hge⟩ := generate_exit_point_spec o hchoice g2
      refine ⟨hgm.trans h2.hmaze, ?_, hgs.trans h2.hstate, ?_, ?_, ?_, ?_, ?_⟩
      · rw [hgp]
        exact h2.hpos
      · rw [hgp]
        exact h2.hcount
      · intro e he
        have := h2.hexitp e he
        rw [hC2.2] at this
        cases this
      · intro _
        rcases hge with hsame | ⟨e, hsome, hring⟩
        · exact Or.inl (hsame.trans hC2.2)
        · refine Or.inr ⟨e, hsome, h2.hmaze ▸ hring, ?_⟩
          rw [hgp, hC2.1]
      · obtain ⟨add, hadd, hprops⟩ := h2.hadd
        exact ⟨add, hga.trans hadd, hprops⟩
      · rw [hga]
        rcases h2.henh with hl | ⟨hz, ho, hlt, hge3⟩
        · exact Or.inl hl
        · refine Or.inr ⟨hz, ho, hlt, ?_⟩
          rw [hgp]
          exact hge3
    · rw [if_neg hC2]
      exact h2
  by_cases hC1 : g1.player.stars_collected = 3 ∧ ¬ ∃ b ∈ g1.ais, b.type = AIType.ENHANCED
  · rw [if_pos hC1]
    refine hstep _ ?_ ?_
    · obtain ⟨hsm, hsp, hss, hsst, hse, add, hadd, hlen, hprops⟩ :=
        spawn_enhanced_ai_spec o hchoice g1
      have hz : enhCount g.ais = 0 := by
        rw [← hg1ais]
        exact enhCount_eq_zero_of_none hC1.2
      refine ⟨hsm.trans hg1maze, ?_, hss.trans hg1state, ?_, ?_, ?_, ?_, ?_⟩
      · rw [hsp, hg1pos]
      · rw [hsp, hg1count]
        omega
      · intro e he
        rw [hse, hg1exit]
        exact he
      · intro hnone
        rw [hse, hg1exit]
        exact Or.inl hnone
      · refine ⟨add, ?_, ?_⟩
        · rw [hadd, hg1ais]
        · intro b hb
          obtain ⟨ht, ho, hd⟩ := hprops b hb
          exact ⟨ht, hg1maze ▸ ho, hg1pos ▸ hd⟩
      · rcases list_len_le_one hlen with hnil | ⟨b, hone⟩
        · rw [hadd, hg1ais, hnil, List.append_nil]
          exact Or.inl rfl
        · have hb := (hprops b (by rw [hone]; exact List.mem_singleton_self b)).1
          refine Or.inr ⟨hz, ?_, ?_, ?_⟩
          · rw [hadd, hg1ais, hone, enhCount_append, hz]
            simp [enhCount, List.countP_cons, hb]
          · omega
          · rw [hsp, hg1count]
            omega
    · rw [(spawn_enhanced_ai_spec o hchoice g1).2.1, hg1count]
  · rw [if_neg hC1]
    refine hstep _ ?_ hg1count
    refine ⟨hg1maze, hg1pos, hg1state, ?_, ?_, ?_, ?_, ?_⟩
    · rw [hg1count]
      omega
    · intro e he
      rw [hg1exit]
      exact he
    · intro hnone
      rw [hg1exit]
      exact Or.inl hnone
    · exact ⟨[], by rw [hg1ais, List.append_nil], by simp⟩
    · rw [hg1ais]
      exact Or.inl rfl

theorem collectStarsLoop_ok (o : GameOracle)
    (hchoice : ∀ l : List Position, l ≠ [] → o.choosePos l ∈ l) :
    ∀ (l : List Position) (g : GameSt), StepOk g (collectStarsLoop o g l) := by
  intro l
  induction l with
  | nil => exact fun g => stepOk_refl g
  | cons star rest ih =>
      intro g
      simp only [collectStarsLoop]
      split
      · exact stepOk_trans (collectOne_ok o hchoice g star) (ih _)
      · exact ih g

/-- What the minimap / event-box / event-expiry blocks leave untouched. -/
structure PhaseFrame (g g' : GameSt) : Prop where
  fmaze : g'.maze = g.maze
  fpos : g'.player.pos = g.player.pos
  fcount : g'.player.stars_collected = g.player.stars_collected
  fstate : g'.state = g.state
  fexit : g'.exit_pos = g.exit_pos
  fenh : enhCount g'.ais = enhCount g.ais

theorem phaseFrame_refl (g : GameSt) : PhaseFrame g g :=
  ⟨rfl, rfl, rfl, rfl, rfl, rfl⟩

theorem phaseFrame_trans {g g' g'' : GameSt} (h1 : PhaseFrame g g')
    (h2 : PhaseFrame g' g'') : PhaseFrame g g'' :=
  ⟨h2.fmaze.trans h1.fmaze, h2.fpos.trans h1.fpos, h2.fcount.trans h1.fcount,
    h2.fstate.trans h1.fstate, h2.fexit.trans h1.fexit, h2.fenh.trans h1.fenh⟩

theorem minimapPhase_frame (now : Rat) (g : GameSt) :
    PhaseFrame g (minimapPhase now g) := by
  unfold minimapPhase
  split
  · split
    · exact ⟨rfl, rfl, rfl, rfl, rfl, rfl⟩
    · exact phaseFrame_refl g
  · exact phaseFrame_refl g

theorem activate_random_event_frame (o : GameOracle) (now : Rat) (g : GameSt) :
    PhaseFrame g (activate_random_event o now g) := by
  unfold activate_random_event
  dsimp only
  cases o.chooseEvent with
  | INVINCIBLE => exact ⟨rfl, rfl, rfl, rfl, rfl, rfl⟩
  | WALL_PASS => exact ⟨rfl, rfl, rfl, rfl, rfl, rfl⟩
  | MAP_DARK => exact ⟨rfl, rfl, rfl, rfl, rfl, rfl⟩
  | ENEMY_SPEED_UP =>
      refine ⟨rfl, rfl, rfl, rfl, rfl, ?_⟩
      refine enhCount_map_of_type ?_ g.ais
      intro b
      rfl

theorem eventBoxPhase_frame (o : GameOracle) (now : Rat) (g : GameSt) :
    PhaseFrame g (eventBoxPhase o now g) := by
  unfold eventBoxPhase
  split
  · split
    · exact phaseFrame_trans
        (⟨rfl, rfl, rfl, rfl, rfl, rfl⟩ : PhaseFrame g { g with event_box_pos := none })
        (activate_random_event_frame o now _)
    · exact phaseFrame_refl g
  · exact phaseFrame_refl g

theorem deactivate_current_event_frame (g : GameSt) :
    PhaseFrame g (deactivate_current_event g) := by
  unfold deactivate_current_event
  dsimp only
  split
  · exact ⟨rfl, rfl, rfl, rfl, rfl, rfl⟩
  · exact ⟨rfl, rfl, rfl, rfl, rfl, rfl⟩
  · refine ⟨rfl, rfl, rfl, rfl, rfl, ?_⟩
    refine enhCount_map_of_type ?_ g.ais
    intro b
    rfl
  · exact ⟨rfl, rfl, rfl, rfl, rfl, rfl⟩

theorem eventExpiryPhase_frame (now : Rat) (g : GameSt) :
    PhaseFrame g (eventExpiryPhase now g) := by
  unfold eventExpiryPhase
  split
  · split
    · exact deactivate_current_event_frame g
    · exact phaseFrame_refl g
  · exact phaseFrame_refl g

theorem wonCheck_spec {g : GameSt} (h : wonCheck g = true) :
    g.player.stars_collected = 5 ∧
    ∃ e, g.exit_pos = some e ∧ g.player.pos.x = e.x ∧ g.player.pos.y = e.y := by
  unfold wonCheck at h
  rw [Bool.and_eq_true] at h
  obtain ⟨h5, hrest⟩ := h
  rw [decide_eq_true_eq] at h5
  refine ⟨h5, ?_⟩
  cases hexit : g.exit_pos with
  | none =>
      rw [hexit] at hrest
      cases hrest
  | some e =>
      rw [hexit] at hrest
      dsimp only at hrest
      rw [Bool.and_eq_true, decide_eq_true_eq, decide_eq_true_eq] at hrest
      exact ⟨e, rfl, hrest.1, hrest.2⟩

theorem aiLoop_spec (pf : Position → Position → List Position) (wpos : Position)
    (now : Rat) (m : Maze) :
    ∀ (l : List AI) (pl : Player) (acc : List AI),
      (aiLoop pf wpos now m l pl acc).2.1.pos = pl.pos ∧
      (aiLoop pf wpos now m l pl acc).2.1.stars_collected = pl.stars_collected ∧
      enhCount (aiLoop pf wpos now m l pl acc).1 = enhCount acc + enhCount l ∧
      ((aiLoop pf wpos now m l pl acc).2.2 = true →
        ∃ b ∈ (aiLoop pf wpos now m l pl acc).1,
          b.pos = (aiLoop pf wpos now m l pl acc).2.1.pos ∧
          ((aiLoop pf wpos now m l pl acc).2.1.is_stealthed now).1 = false ∧
          (aiLoop pf wpos now m l pl acc).2.1.is_invincible now = false) := by
  intro l
  induction l with
  | nil =>
      intro pl acc
      refine ⟨rfl, rfl, by simp [aiLoop, enhCount], ?_⟩
      intro h
      cases h
  | cons b rest ih =>
      intro pl acc
      simp only [aiLoop]
      have hbty : (AI.aiUpdate pf wpos now pl m b).1.type = b.type :=
        aiUpdate_fst_type pf wpos now pl m b
      have hpframe := aiUpdate_snd_frame pf wpos now pl m b
      split
      · next hposq =>
          split
          · next hspf =>
              split
              · next hinvf =>
                  have hsfr := is_stealthed_frame now (AI.aiUpdate pf wpos now pl m b).2
                  refine ⟨hsfr.1.trans hpframe.1, hsfr.2.1.trans hpframe.2.1, ?_, ?_⟩
                  · rw [enhCount_append]
                    simp only [enhCount, List.countP_cons, hbty]
                  · intro _
                    refine ⟨(AI.aiUpdate pf wpos now pl m b).1, ?_, ?_, ?_, hinvf⟩
                    · exact List.mem_append_right _ (List.mem_cons_self _ _)
                    · exact hposq.trans hsfr.1.symm
                    · rw [is_stealthed_again]
                      exact hspf
              · next =>
                  obtain ⟨h1, h2, h3, h4⟩ := ih
                    ((AI.aiUpdate pf wpos now pl m b).2.is_stealthed now).2 (acc ++ [(AI.aiUpdate pf wpos now pl m b).1])
                  have hsfr := is_stealthed_frame now (AI.aiUpdate pf wpos now pl m b).2
                  refine ⟨h1.trans (hsfr.1.trans hpframe.1),
                    h2.trans (hsfr.2.1.trans hpframe.2.1), ?_, h4⟩
                  rw [h3, enhCount_append]
                  simp only [enhCount, List.countP_cons, List.countP_nil, hbty]
                  omega
          · next =>
              obtain ⟨h1, h2, h3, h4⟩ := ih
                ((AI.aiUpdate pf wpos now pl m b).2.is_stealthed now).2 (acc ++ [(AI.aiUpdate pf wpos now pl m b).1])
              have hsfr := is_stealthed_frame now (AI.aiUpdate pf wpos now pl m b).2
              refine ⟨h1.trans (hsfr.1.trans hpframe.1),
                h2.trans (hsfr.2.1.trans hpframe.2.1), ?_, h4⟩
              rw [h3, enhCount_append]
              simp only [enhCount, List.countP_cons, List.countP_nil, hbty]
              omega
      · next =>
          obtain ⟨h1, h2, h3, h4⟩ := ih
            (AI.aiUpdate pf wpos now pl m b).2 (acc ++ [(AI.aiUpdate pf wpos now pl m b).1])
          refine ⟨h1.trans hpframe.1, h2.trans hpframe.2.1, ?_, h4⟩
          rw [h3, enhCount_append]
          simp only [enhCount, List.countP_cons, List.countP_nil, hbty]
          omega

theorem aiPhase_spec (o : GameOracle) (now : Rat) (g : GameSt) :
    (aiPhase o now g).maze = g.maze ∧
    (aiPhase o now g).exit_pos = g.exit_pos ∧
    (aiPhase o now g).player.pos = g.player.pos ∧
    (aiPhase o now g).player.stars_collected = g.player.stars_collected ∧
    enhCount (aiPhase o now g).ais = enhCount g.ais ∧
    ((aiPhase o now g).state = g.state ∨
      ((aiPhase o now g).state = GameState.LOST ∧
        ((aiPhase o now g).player.is_stealthed now).1 = false ∧
        (aiPhase o now g).player.is_invincible now = false ∧
        ∃ b ∈ (aiPhase o now g).ais, b.pos = (aiPhase o now g).player.pos)) := by
  obtain ⟨h1, h2, h3, h4⟩ := aiLoop_spec o.pathfinder o.wander now g.maze g.ais g.player []
  unfold aiPhase
  dsimp only
  refine ⟨rfl, rfl, h1, h2, ?_, ?_⟩
  · rw [h3]
    simp [enhCount]
  · cases hlost : (aiLoop o.pathfinder o.wander now g.maze g.ais g.player []).2.2 with
    | false => exact Or.inl rfl
    | true =>
        obtain ⟨b, hbmem, hbpos, hst, hinv⟩ := h4 hlost
        exact Or.inr ⟨rfl, hst, hinv, b, hbmem, hbpos⟩

theorem gameUpdate_main (o : GameOracle) (now : Rat) (g : GameSt)
    (hplay : g.state = GameState.PLAYING)
    (htime : ¬ GAME_TIME_LIMIT < now - g.start_time) :
    ∃ g4 : GameSt,
      PhaseFrame (collectStarsLoop o g g.stars) g4 ∧
      ((wonCheck g4 = true ∧ gameUpdate o now g = { g4 with state := GameState.WON }) ∨
        (wonCheck g4 = false ∧ gameUpdate o now g = aiPhase o now g4)) := by
  refine ⟨eventExpiryPhase now (eventBoxPhase o now (minimapPhase now
    (collectStarsLoop o g g.stars))), ?_, ?_⟩
  · exact phaseFrame_trans (phaseFrame_trans (minimapPhase_frame now _)
      (eventBoxPhase_frame o now _)) (eventExpiryPhase_frame now _)
  · unfold gameUpdate
    rw [if_neg (not_not_intro hplay), if_neg htime]
    dsimp only
    cases hwon : wonCheck (eventExpiryPhase now (eventBoxPhase o now (minimapPhase now
        (collectStarsLoop o g g.stars)))) with
    | true =>
        refine Or.inl ⟨rfl, ?_⟩
        rw [if_pos rfl]
    | false =>
        refine Or.inr ⟨rfl, ?_⟩
        rw [if_neg Bool.false_ne_true]

/-- C3: an exit, once set, is never regenerated or moved by `update`; an
exit that appears during a tick is an open cell of the interior border ring
(coordinates in `1 .. 23` with one of them extremal, `23 = MAZE_WIDTH - 2`)
and the tick's star count has reached 5; and a PLAYING tick ends WON exactly
under the source's victory guard: 5 stars, an exit in place, and the player
standing on it.  `hchoice` says `random.choice` returns an element of its
list. -/
theorem exit_generation_once_ring_and_won_gate (o : GameOracle) (now : Rat)
    (g : GameSt)
    (hchoice : ∀ l : List Position, l ≠ [] → o.choosePos l ∈ l) :
    (∀ e, g.exit_pos = some e → (gameUpdate o now g).exit_pos = some e) ∧
    (g.exit_pos = none → ∀ e, (gameUpdate o now g).exit_pos = some e →
      mazeAt g.maze e.x e.y = 0 ∧
      1 ≤ e.x ∧ e.x ≤ 23 ∧ 1 ≤ e.y ∧ e.y ≤ 23 ∧
      (e.x = 1 ∨ e.x = 23 ∨ e.y = 1 ∨ e.y = 23) ∧
      5 ≤ (gameUpdate o now g).player.stars_collected) ∧
    (g.state = GameState.PLAYING →
      (gameUpdate o now g).state = GameState.WON →
      (gameUpdate o now g).player.stars_collected = 5 ∧
      ∃ e, (gameUpdate o now g).exit_pos = some e ∧
        (gameUpdate o now g).player.pos.x = e.x ∧
        (gameUpdate o now g).player.pos.y = e.y) := by
  by_cases hplay : g.state = GameState.PLAYING
  · by_cases htime : GAME_TIME_LIMIT < now - g.start_time
    · have hg : gameUpdate o now g = { g with state := GameState.LOST } := by
        unfold gameUpdate
        rw [if_neg (not_not_intro hplay), if_pos htime]
      rw [hg]
      refine ⟨fun e he => he, ?_, ?_⟩
      · intro hnone e hsome
        dsimp only at hsome
        rw [hnone] at hsome
        cases hsome
      · intro _ hwon
        dsimp only at hwon
        cases hwon
    · obtain ⟨g4, hf, hcase⟩ := gameUpdate_main o now g hplay htime
      have hc := collectStarsLoop_ok o hchoice g.stars g
      rcases hcase with ⟨hwon, heq⟩ | ⟨hwon, heq⟩
      · rw [heq]
        refine ⟨?_, ?_, ?_⟩
        · intro e he
          show g4.exit_pos = some e
          rw [hf.fexit]
          exact hc.hexitp e he
        · intro hnone e hsome
          replace hsome : g4.exit_pos = some e := hsome
          rw [hf.fexit] at hsome
          rcases hc.hexitf hnone with hn | ⟨e', he', hring, h5⟩
          · rw [hn] at hsome
            cases hsome
          · rw [he'] at hsome
            injection hsome with he2
            subst he2
            obtain ⟨hopen, hx1, hx23, hy1, hy23, hdisj⟩ := exitRing_mem hring
            refine ⟨hopen, hx1, hx23, hy1, hy23, hdisj, ?_⟩
            show 5 ≤ g4.player.stars_collected
            rw [hf.fcount]
            exact h5
        · intro _ _
          obtain ⟨h5, e, hsome, hex, hey⟩ := wonCheck_spec hwon
          exact ⟨h5, e, hsome, hex, hey⟩
      · rw [heq]
        obtain ⟨ham, hae, hapos, hacount, haenh, hastate⟩ := aiPhase_spec o now g4
        refine ⟨?_, ?_, ?_⟩
        · intro e he
          rw [hae, hf.fexit]
          exact hc.hexitp e he
        · intro hnone e hsome
          rw [hae, hf.fexit] at hsome
          rcases hc.hexitf hnone with hn | ⟨e', he', hring, h5⟩
          · rw [hn] at hsome
            cases hsome
          · rw [he'] at hsome
            injection hsome with he2
            subst he2
            obtain ⟨hopen, hx1, hx23, hy1, hy23, hdisj⟩ := exitRing_mem hring
            refine ⟨hopen, hx1, hx23, hy1, hy23, hdisj, ?_⟩
            rw [hacount, hf.fcount]
            exact h5
        · intro _ hwonst
          rcases hastate with hsame | ⟨hlost, _⟩
          · rw [hsame, hf.fstate, hc.hstate, hplay] at hwonst
            cases hwonst
          · rw [hlost] at hwonst
            cases hwonst
  · have hg : gameUpdate o now g = g := by
      unfold gameUpdate
      rw [if_pos hplay]
    rw [hg]
    refine ⟨fun e he => he, ?_, fun hp _ => absurd hp hplay⟩
    intro hnone e hsome
    rw [hnone] at hsome
    cases hsome

/-- C4: a PLAYING tick that does not time out can only end LOST through the
AI-collision branch, whose guard demands an AI on the player's cell with the
player neither stealthed nor invincible at that instant — all read off the
resulting state.  `hchoice` says `random.choice` returns an element of its
list. -/
theorem collision_lost_only_when_exposed (o : GameOracle) (now : Rat) (g : GameSt)
    (hchoice : ∀ l : List Position, l ≠ [] → o.choosePos l ∈ l)
    (hplay : g.state = GameState.PLAYING)
    (htime : now - g.start_time ≤ GAME_TIME_LIMIT) :
    (gameUpdate o now g).state = GameState.LOST →
      ((gameUpdate o now g).player.is_stealthed now).1 = false ∧
      (gameUpdate o now g).player.is_invincible now = false ∧
      ∃ b ∈ (gameUpdate o now g).ais, b.pos = (gameUpdate o now g).player.pos := by
  have htime' : ¬ GAME_TIME_LIMIT < now - g.start_time := not_lt.mpr htime
  obtain ⟨g4, hf, hcase⟩ := gameUpdate_main o now g hplay htime'
  have hc := collectStarsLoop_ok o hchoice g.stars g
  rcases hcase with ⟨hwon, heq⟩ | ⟨hwon, heq⟩
  · rw [heq]
    intro hlost
    replace hlost : GameState.WON = GameState.LOST := hlost
    cases hlost
  · rw [heq]
    intro hlost
    obtain ⟨ham, hae, hapos, hacount, haenh, hastate⟩ := aiPhase_spec o now g4
    rcases hastate with hsame | ⟨_, hst, hinv, b, hbmem, hbpos⟩
    · rw [hsame, hf.fstate, hc.hstate, hplay] at hlost
      cases hlost
    · exact ⟨hst, hinv, b, hbmem, hbpos⟩

/-- C6: over one `update` tick the number of enhanced AIs either stays put
or steps from 0 to 1, the latter only on the tick whose pickups carry the
star count across 3; and every AI the collection loop adds is an enhanced
AI standing on an open cell farther than 8 (`dist_sq > 8²`) from the
player.  `hchoice` says `random.choice` returns an element of its list. -/
theorem enhanced_ai_spawn_once_and_far (o : GameOracle) (now : Rat) (g : GameSt)
    (hchoice : ∀ l : List Position, l ≠ [] → o.choosePos l ∈ l) :
    (enhCount (gameUpdate o now g).ais = enhCount g.ais ∨
      (enhCount g.ais = 0 ∧ enhCount (gameUpdate o now g).ais = 1 ∧
        g.player.stars_collected < 3 ∧
        3 ≤ (gameUpdate o now g).player.stars_collected)) ∧
    (∀ b ∈ (collectStarsLoop o g g.stars).ais, b ∉ g.ais →
      b.type = AIType.ENHANCED ∧ mazeAt g.maze b.pos.x b.pos.y = 0 ∧
      (8 : Int) ^ 2 < Position.dist_sq b.pos g.player.pos) := by
  have hc := collectStarsLoop_ok o hchoice g.stars g
  refine ⟨?_, ?_⟩
  · by_cases hplay : g.state = GameState.PLAYING
    · by_cases htime : GAME_TIME_LIMIT < now - g.start_time
      · have hg : gameUpdate o now g = { g with state := GameState.LOST } := by
          unfold gameUpdate
          rw [if_neg (not_not_intro hplay), if_pos htime]
        rw [hg]
        exact Or.inl rfl
      · obtain ⟨g4, hf, hcase⟩ := gameUpdate_main o now g hplay htime
        have henh4 : enhCount g4.ais = enhCount (collectStarsLoop o g g.stars).ais :=
          hf.fenh
        have hcount4 : g4.player.stars_collected =
            (collectStarsLoop o g g.stars).player.stars_collected := hf.fcount
        rcases hcase with ⟨hwon, heq⟩ | ⟨hwon, heq⟩
        · rw [heq]
          rcases hc.henh with hl | ⟨hz, ho, hlt, hge3⟩
          · refine Or.inl ?_
            show enhCount g4.ais = enhCount g.ais
            rw [henh4]
            exact hl
          · refine Or.inr ⟨hz, ?_, hlt, ?_⟩
            · show enhCount g4.ais = 1
              rw [henh4]
              exact ho
            · show 3 ≤ g4.player.stars_collected
              rw [hcount4]
              exact hge3
        · rw [heq]
          obtain ⟨ham, hae, hapos, hacount, haenh, hastate⟩ := aiPhase_spec o now g4
          rcases hc.henh with hl | ⟨hz, ho, hlt, hge3⟩
          · refine Or.inl ?_
            rw [haenh, henh4]
            exact hl
          · refine Or.inr ⟨hz, ?_, hlt, ?_⟩
            · rw [haenh, henh4]
              exact ho
            · rw [hacount, hcount4]
              exact hge3
    · have hg : gameUpdate o now g = g := by
        unfold gameUpdate
        rw [if_pos hplay]
      rw [hg]
      exact Or.inl rfl
  · obtain ⟨add, hadd, hprops⟩ := hc.hadd
    intro b hb hnb
    rw [hadd] at hb
    rcases List.mem_append.mp hb with hb | hb
    · exact absurd hb hnb
    · exact hprops b hb

/-- Test oracle for the game-update witnesses: `random.choice` is the head
of the list. -/
def witOracle : GameOracle :=
  { choosePos := fun l => l.headD ⟨0, 0⟩
    chooseEvent := EventType.MAP_DARK
    wander := ⟨1, 1⟩
    pathfinder := fun _ _ => [] }

theorem witOracle_choosePos_mem :
    ∀ l : List Position, l ≠ [] → witOracle.choosePos l ∈ l := by
  intro l hl
  cases l with
  | nil => exact absurd rfl hl
  | cons a t => exact List.mem_cons_self a t

/-- Test game state for the witnesses: a fresh PLAYING session. -/
def witGame : GameSt :=
  { state := GameState.PLAYING
    maze := mazeAllOpen
    player := Player.init 1 1
    stars := []
    exit_pos := none
    minimap_item_pos := none
    minimap_active_until := 0
    event_box_pos := none
    current_event := none
    event_active_until := 0
    ais := []
    start_time := 0 }

/-- Witness for `exit_generation_once_ring_and_won_gate` at a concrete
oracle and state. -/
theorem exit_generation_once_ring_and_won_gate_witness :
    (∀ l : List Position, l ≠ [] → witOracle.choosePos l ∈ l) ∧
    ((∀ e, witGame.exit_pos = some e →
        (gameUpdate witOracle 0 witGame).exit_pos = some e) ∧
      (witGame.exit_pos = none → ∀ e,
        (gameUpdate witOracle 0 witGame).exit_pos = some e →
        mazeAt witGame.maze e.x e.y = 0 ∧
        1 ≤ e.x ∧ e.x ≤ 23 ∧ 1 ≤ e.y ∧ e.y ≤ 23 ∧
        (e.x = 1 ∨ e.x = 23 ∨ e.y = 1 ∨ e.y = 23) ∧
        5 ≤ (gameUpdate witOracle 0 witGame).player.stars_collected) ∧
      (witGame.state = GameState.PLAYING →
        (gameUpdate witOracle 0 witGame).state = GameState.WON →
        (gameUpdate witOracle 0 witGame).player.stars_collected = 5 ∧
        ∃ e, (gameUpdate witOracle 0 witGame).exit_pos = some e ∧
          (gameUpdate witOracle 0 witGame).player.pos.x = e.x ∧
          (gameUpdate witOracle 0 witGame).player.pos.y = e.y)) :=
  ⟨witOracle_choosePos_mem,
    exit_generation_once_ring_and_won_gate witOracle 0 witGame witOracle_choosePos_mem⟩

/-- Witness for `collision_lost_only_when_exposed` at a concrete oracle and
state. -/
theorem collision_lost_only_when_exposed_witness :
    (∀ l : List Position, l ≠ [] → witOracle.choosePos l ∈ l) ∧
    witGame.state = GameState.PLAYING ∧
    (0 : Rat) - witGame.start_time ≤ GAME_TIME_LIMIT ∧
    ((gameUpdate witOracle 0 witGame).state = GameState.LOST →
      ((gameUpdate witOracle 0 witGame).player.is_stealthed 0).1 = false ∧
      (gameUpdate witOracle 0 witGame).player.is_invincible 0 = false ∧
      ∃ b ∈ (gameUpdate witOracle 0 witGame).ais,
        b.pos = (gameUpdate witOracle 0 witGame).player.pos) :=
  ⟨witOracle_choosePos_mem, rfl, by norm_num [witGame, GAME_TIME_LIMIT],
    collision_lost_only_when_exposed witOracle 0 witGame witOracle_choosePos_mem rfl
      (by norm_num [witGame, GAME_TIME_LIMIT])⟩

/-- Witness for `enhanced_ai_spawn_once_and_far` at a concrete oracle and
state. -/
theorem enhanced_ai_spawn_once_and_far_witness :
    (∀ l : List Position, l ≠ [] → witOracle.choosePos l ∈ l) ∧
    ((enhCount (gameUpdate witOracle 0 witGame).ais = enhCount witGame.ais ∨
        (enhCount witGame.ais = 0 ∧
          enhCount (gameUpdate witOracle 0 witGame).ais = 1 ∧
          witGame.player.stars_collected < 3 ∧
          3 ≤ (gameUpdate witOracle 0 witGame).player.stars_collected)) ∧
      (∀ b ∈ (collectStarsLoop witOracle witGame witGame.stars).ais, b ∉ witGame.ais →
        b.type = AIType.ENHANCED ∧ mazeAt witGame.maze b.pos.x b.pos.y = 0 ∧
        (8 : Int) ^ 2 < Position.dist_sq b.pos witGame.player.pos)) :=
  ⟨witOracle_choosePos_mem,
    enhanced_ai_spawn_once_and_far witOracle 0 witGame witOracle_choosePos_mem⟩
